import Mathlib

/-!
Shallow embedding of the read-buffer row-group engine
(`src/read_buffer/src/row_group.rs`).

The repository ships only `row_group.rs` (and the out-of-scope `server.rs`);
the `column` module it builds on (logical values, comparison operators,
row-id sets, the column capability surface of spec §4.1 and the aggregate
kinds of §3) is not part of the sources.  Those leaves are therefore
modelled from the specification and marked as such; everything in the
`RowGroup` layer is translated directly from the Rust source.

Conventions:
* machine integers become `Nat`/`Int` (with `% 2 ^ 32` at the single place
  the source truncates, the `as u32` casts of the packed group key);
* a Rust panic (`assert!`, `unwrap`, `todo!`, `unreachable!`) becomes
  `Option.none` of the surrounding function;
* NULL logical values are `Option.none`; a present value is `some v`.
-/

namespace ReadBuffer

/-- Modelled from the spec (§2 value model): the kind of a non-null scalar.
The `column` module defining the value enum is not in the sources. -/
inductive VKind
  | kStr
  | kInt
  | kBool
  deriving DecidableEq, Repr

/-- Modelled from the spec (§2 value model, `Value`/`OwnedValue` in the
missing `column` module): a non-null logical value.  Strings cover tag
values, `int` covers the signed/unsigned integer scalars, booleans the
boolean scalars.  NULL is represented as `Option.none` one level up. -/
inductive LValue
  | str (s : String)
  | int (n : Int)
  | boolean (b : Bool)
  deriving DecidableEq, Repr

/-- Three-way comparison derived from a linear order (the per-type total
orders used by the value model). -/
def cmp3 {α : Type} [LinearOrder α] (a b : α) : Ordering :=
  if a < b then .lt else if a = b then .eq else .gt

/-- Lexicographic three-way comparison of character lists (by code point). -/
def strCmpAux : List Char → List Char → Ordering
  | [], [] => .eq
  | [], _ :: _ => .lt
  | _ :: _, [] => .gt
  | a :: xs, b :: ys =>
    match cmp3 a.toNat b.toNat with
    | .eq => strCmpAux xs ys
    | o => o

/-- Lexicographic three-way comparison of strings. -/
def strCmp (a b : String) : Ordering := strCmpAux a.data b.data

/-- Modelled from the spec: partial comparison of logical values
(`PartialOrd` on the missing `Value` type).  Values of the same kind
compare by their type's total order; values of different kinds are
incomparable. -/
def LValue.pcmp : LValue → LValue → Option Ordering
  | .str a, .str b => some (strCmp a b)
  | .int a, .int b => some (cmp3 a b)
  | .boolean a, .boolean b => some (cmp3 a b)
  | _, _ => none

def LValue.kind : LValue → VKind
  | .str _ => .kStr
  | .int _ => .kInt
  | .boolean _ => .kBool

/-- Rust `a < b` through `PartialOrd`: true iff `partial_cmp = Some(Less)`. -/
def LValue.pLt (a b : LValue) : Bool := decide (a.pcmp b = some .lt)

/-- Rust `a <= b` through `PartialOrd`. -/
def LValue.pLe (a b : LValue) : Bool :=
  decide (a.pcmp b = some .lt) || decide (a.pcmp b = some .eq)

/-- Rust `a > b` through `PartialOrd`. -/
def LValue.pGt (a b : LValue) : Bool := decide (a.pcmp b = some .gt)

/-- Rust `a >= b` through `PartialOrd`. -/
def LValue.pGe (a b : LValue) : Bool :=
  decide (a.pcmp b = some .gt) || decide (a.pcmp b = some .eq)

/-- The comparison operator enum (`cmp::Operator` of the missing `column`
module; spec §2: `{=, ≠, <, ≤, >, ≥}`). -/
inductive Operator
  | equal
  | notEqual
  | gt
  | gte
  | lt
  | lte
  deriving DecidableEq, Repr

/-- Modelled from the spec (§4.1 `row_ids_filter` contract): whether one
logical value satisfies a comparison against the predicate value.  A NULL
value satisfies no predicate; incomparable values satisfy none either. -/
def matchesOp (op : Operator) (v : LValue) (w : Option LValue) : Bool :=
  match w with
  | none => false
  | some w =>
    match w.pcmp v with
    | none => false
    | some ord =>
      match op with
      | .equal => ord == .eq
      | .notEqual => ord != .eq
      | .gt => ord == .gt
      | .gte => ord == .gt || ord == .eq
      | .lt => ord == .lt
      | .lte => ord == .lt || ord == .eq

/-- Partial comparison of possibly-NULL logical values (`PartialOrd` on the
missing `Value` type including its `Null` variant): NULL is incomparable to
everything, including NULL itself. -/
def pcmpV : Option LValue → Option LValue → Option Ordering
  | some a, some b => a.pcmp b
  | _, _ => none

/-- Modelled from the spec (§4.1 column capability surface): a column is its
logical row values plus the static capability flag
`has_pre_computed_row_ids` (true for the RLE/dictionary encodings). -/
structure Column where
  data : List (Option LValue)
  preComputedRowIds : Bool := true
  deriving DecidableEq, Repr

def Column.numRows (c : Column) : Nat := c.data.length

/-- Logical value at a row id (rows are always in range where this is used). -/
def Column.valueAt (c : Column) (r : Nat) : Option LValue := c.data.getD r none

/-- One step of the running (min, max) fold; NULLs are skipped. -/
def rangeStep (acc : Option (LValue × LValue)) (v : Option LValue) :
    Option (LValue × LValue) :=
  match v with
  | none => acc
  | some v =>
    match acc with
    | none => some (v, v)
    | some (lo, hi) => some (if v.pLt lo then v else lo, if hi.pLt v then v else hi)

/-- Modelled from the spec (§4.1): `column_range()` is `None` iff the column
is entirely null, otherwise the observed non-null extrema. -/
def Column.columnRange (c : Column) : Option (LValue × LValue) :=
  c.data.foldl rangeStep none

/-- Modelled from the spec (§4.1 / glossary): the dictionary of distinct
logical values of a dictionary/RLE column, one 32-bit encoded id per
distinct value (NULL has an id of its own, as NULL group keys exist). -/
def Column.dict (c : Column) : List (Option LValue) := c.data.dedup

/-- Encoded id of a logical value: its index in the dictionary. -/
def Column.encodeVal (c : Column) (v : Option LValue) : Nat :=
  @List.indexOf (Option LValue) instBEqOfDecidableEq v c.dict

/-- Modelled from the spec (§4.1): `decode_id`, the inverse of encoded ids. -/
def Column.decodeId (c : Column) (i : Nat) : Option LValue := c.dict.getD i none

def Column.encodedAt (c : Column) (r : Nat) : Nat := c.encodeVal (c.valueAt r)

/-- Modelled from the spec (§4.1): `encoded_values(row_ids)`. -/
def Column.encodedValues (c : Column) (rowIds : List Nat) : List Nat :=
  rowIds.map c.encodedAt

/-- Modelled from the spec (§4.1): `all_encoded_values()`. -/
def Column.allEncodedValues (c : Column) : List Nat :=
  (List.range c.numRows).map c.encodedAt

/-- Modelled from the spec (§4.1): `values(row_ids)`, materialised logical
values in the requested order. -/
def Column.valuesAt (c : Column) (rowIds : List Nat) : List (Option LValue) :=
  rowIds.map c.valueAt

/-- Modelled from the spec (§4.1): `all_values()`. -/
def Column.allValues (c : Column) : List (Option LValue) := c.data

/-- Row ids (ascending) holding a given logical value. -/
def Column.rowsWithValue (c : Column) (v : Option LValue) : List Nat :=
  (List.range c.numRows).filter (fun r => c.valueAt r == v)

/-- Modelled from the spec (§4.1): `grouped_row_ids()` — for each encoded id
in dictionary order, the set of rows holding that value. -/
def Column.groupedRowIds (c : Column) : List (List Nat) :=
  c.dict.map c.rowsWithValue

/-- The three-way row-id result `{None, Some(ids), All}` of the missing
`column` module (spec §2).  The scratch-buffer payloads of the `None`/`All`
variants are a performance contract (spec §4.2) and are dropped. -/
inductive RowIDsOption
  | noRows
  | someRows (ids : List Nat)
  | allRows
  deriving DecidableEq, Repr

/-- Modelled from the spec (§4.1): `row_ids_filter(op, value)`; `None` if no
row matches, `All` if every row matches, `Some(ids)` otherwise. -/
def Column.rowIdsFilter (c : Column) (op : Operator) (v : LValue) : RowIDsOption :=
  let ids := (List.range c.numRows).filter (fun r => matchesOp op v (c.valueAt r))
  if ids.isEmpty then .noRows
  else if ids.length == c.numRows then .allRows
  else .someRows ids

/-- Modelled from the spec (§4.1): `row_ids_filter_range` applies the two
caller-supplied comparison bounds together (their conjunction). -/
def Column.rowIdsFilterRange (c : Column) (p1 p2 : Operator × LValue) : RowIDsOption :=
  let ids := (List.range c.numRows).filter
    (fun r => matchesOp p1.1 p1.2 (c.valueAt r) && matchesOp p2.1 p2.2 (c.valueAt r))
  if ids.isEmpty then .noRows
  else if ids.length == c.numRows then .allRows
  else .someRows ids

/-- `RowIDs::intersect` on the abstract set value (order preserved from the
left operand, which is always ascending where this is used). -/
def rowIdsIntersect (a b : List Nat) : List Nat := a.filter (fun r => b.contains r)

/-- `RowIDs::union`; in the planner it is only ever applied to an empty
accumulator, where it returns the right operand. -/
def rowIdsUnion (a b : List Nat) : List Nat := a ++ b.filter (fun r => !(a.contains r))

/-- `AggregateType` (spec §3 aggregator kinds). -/
inductive AggregateType
  | count
  | first
  | last
  | min
  | max
  | sum
  deriving DecidableEq, Repr

/-- Modelled from the spec (§3 aggregator state): `AggregateResult` of the
missing `column` module.  `first`/`last` are placeholders that the kernels
must reject ("unimplemented"). -/
inductive AggregateResult
  | count (n : Nat)
  | sum (v : Option LValue)
  | min (v : Option LValue)
  | max (v : Option LValue)
  | first
  | last
  deriving DecidableEq, Repr

/-- Numeric addition of logical values (sums are only ever taken over
numeric columns; any other combination keeps the accumulator). -/
def addLV : LValue → LValue → LValue
  | .int a, .int b => .int (a + b)
  | a, _ => a

/-- Count update: counts non-null observations (spec §3). -/
def updateCount (n : Nat) (v : Option LValue) : Nat :=
  match v with
  | none => n
  | some _ => n + 1

/-- Sum update: skips NULLs, seeds from the first non-null (spec §3). -/
def updateSum (acc : Option LValue) (v : Option LValue) : Option LValue :=
  match v with
  | none => acc
  | some v =>
    match acc with
    | none => some v
    | some s => some (addLV s v)

/-- Min update: skips NULLs, seeds from the first non-null (spec §3). -/
def updateMin (acc : Option LValue) (v : Option LValue) : Option LValue :=
  match v with
  | none => acc
  | some v =>
    match acc with
    | none => some v
    | some m => some (if v.pLt m then v else m)

/-- Max update: skips NULLs, seeds from the first non-null (spec §3). -/
def updateMax (acc : Option LValue) (v : Option LValue) : Option LValue :=
  match v with
  | none => acc
  | some v =>
    match acc with
    | none => some v
    | some m => some (if m.pLt v then v else m)

/-- Modelled from the spec (§3): `AggregateResult::from(agg_type)`, the
zero state of each aggregator kind. -/
def AggregateResult.fromType : AggregateType → AggregateResult
  | .count => .count 0
  | .sum => .sum none
  | .min => .min none
  | .max => .max none
  | .first => .first
  | .last => .last

/-- Modelled from the spec (§3): consume one logical value into an
aggregator state. -/
def AggregateResult.update : AggregateResult → Option LValue → AggregateResult
  | .count n, v => .count (updateCount n v)
  | .sum s, v => .sum (updateSum s v)
  | .min m, v => .min (updateMin m v)
  | .max m, v => .max (updateMax m v)
  | a, _ => a

/-- Modelled from the spec (§4.1): the column `count` aggregate kernel over
the supplied rows (counts non-null observations, §3). -/
def Column.countAgg (c : Column) (rows : List Nat) : Nat :=
  (c.valuesAt rows).foldl updateCount 0

/-- Modelled from the spec (§4.1): the column `sum` aggregate kernel. -/
def Column.sumAgg (c : Column) (rows : List Nat) : Option LValue :=
  (c.valuesAt rows).foldl updateSum none

/-- Modelled from the spec (§4.1): the column `min` aggregate kernel. -/
def Column.minAgg (c : Column) (rows : List Nat) : Option LValue :=
  (c.valuesAt rows).foldl updateMin none

/-- Modelled from the spec (§4.1): the column `max` aggregate kernel. -/
def Column.maxAgg (c : Column) (rows : List Nat) : Option LValue :=
  (c.valuesAt rows).foldl updateMax none

/-- `TIME_COLUMN_NAME`. -/
def timeColumnName : String := "time"

/-- `Predicate<'_> = (ColumnName, (Operator, Value))`. -/
abbrev Predicate := String × (Operator × LValue)

/-- `ColumnType`: the logical role a column is given at construction. -/
inductive ColumnType
  | tag (c : Column)
  | field (c : Column)
  | time (c : Column)
  deriving DecidableEq, Repr

def ColumnType.col : ColumnType → Column
  | .tag c => c
  | .field c => c
  | .time c => c

def ColumnType.isTime : ColumnType → Bool
  | .time _ => true
  | _ => false

/-- `RowGroup` together with its `MetaData` (rows, per-column value ranges,
time range).  Columns are kept in map (name) order with their names; the
tag/field sub-maps and the byte size are not needed by any claim. -/
structure RowGroup where
  rowsCount : Nat
  columnRangesMeta : List (String × (LValue × LValue))
  timeRangeMeta : Int × Int
  columns : List (String × Column)
  timeColumn : Nat
  deriving DecidableEq, Repr

/-- Intermediate state of `RowGroup::new`'s construction loop. -/
structure BuildState where
  ranges : List (String × (LValue × LValue))
  timeRange : Int × Int
  cols : List (String × Column)
  timeIdx : Option Nat
  deriving Repr

/-- The per-column body of `RowGroup::new`: asserts the row count, inserts
the `column_range().unwrap()` into the ranges map (a panic — `none` — when
the column is entirely null), and records the time column and time range
(panicking when the time range is missing or not an i64 pair). -/
def buildColumns : List (String × ColumnType) → BuildState → Nat → Option BuildState
  | [], st, _ => some st
  | (name, ct) :: rest, st, rows =>
    if ct.col.numRows ≠ rows then none
    else
      match ct, ct.col.columnRange with
      | _, none => none
      | .time c, some (LValue.int lo, LValue.int hi) =>
        buildColumns rest
          { ranges := st.ranges ++ [(name, (LValue.int lo, LValue.int hi))],
            timeRange := (lo, hi),
            cols := st.cols ++ [(name, c)],
            timeIdx := some st.cols.length } rows
      | .time _, some _ => none
      | .tag c, some r =>
        buildColumns rest
          { st with
            ranges := st.ranges ++ [(name, r)],
            cols := st.cols ++ [(name, c)] } rows
      | .field c, some r =>
        buildColumns rest
          { st with
            ranges := st.ranges ++ [(name, r)],
            cols := st.cols ++ [(name, c)] } rows

/-- `RowGroup::new(rows, columns)`; `none` models a panic.  The final
`time_column.unwrap()` panics when no time column was seen. -/
def RowGroup.new (rows : Nat) (columns : List (String × ColumnType)) : Option RowGroup :=
  match buildColumns columns ⟨[], (0, 0), [], none⟩ rows with
  | none => none
  | some st =>
    match st.timeIdx with
    | none => none
    | some t => some ⟨rows, st.ranges, st.timeRange, st.cols, t⟩

/-- `column_by_name`; the source panics on an unknown name ("the caller's
responsibility to ensure the column exists"), the model returns an empty
column, and every theorem only reads existing names. -/
def RowGroup.columnByName (rg : RowGroup) (name : String) : Column :=
  match rg.columns.lookup name with
  | some c => c
  | none => ⟨[], true⟩

/-- The timestamp column (`time_column()`). -/
def RowGroup.timeColumnCol (rg : RowGroup) : Column :=
  (rg.columns.getD rg.timeColumn ("", ⟨[], true⟩)).2

/-- `row_ids_from_predicates_with_time_range`: picks the two predicates on
the time column and runs the range filter once.  The source asserts there
are exactly two; every caller guarantees it. -/
def RowGroup.rowIdsFromPredicatesWithTimeRange (rg : RowGroup)
    (predicates : List Predicate) : RowIDsOption :=
  match predicates.filter (fun p => p.1 == timeColumnName) with
  | p0 :: p1 :: _ => rg.timeColumnCol.rowIdsFilterRange p0.2 p1.2
  | _ => .noRows

/-- The per-column loop of `row_ids_from_predicates`, translated exactly:
`None` returns early, `All` is a no-op, `Some(ids)` unions into an empty
accumulator and then intersects. -/
def RowGroup.predLoop (rg : RowGroup) : List Predicate → List Nat → RowIDsOption
  | [], acc => if acc.isEmpty then .allRows else .someRows acc
  | (name, (op, v)) :: rest, acc =>
    match (rg.columnByName name).rowIdsFilter op v with
    | .noRows => .noRows
    | .allRows => rg.predLoop rest acc
    | .someRows ids =>
      let acc1 := if acc.isEmpty then rowIdsUnion acc ids else acc
      rg.predLoop rest (rowIdsIntersect acc1 ids)

/-- `row_ids_from_predicates`: the two-sided time-range fast path (taken
iff exactly two predicates name the time column, which are then consumed),
followed by the per-column loop and the final empty-accumulator-to-`All`
mapping inside `predLoop`. -/
def RowGroup.rowIdsFromPredicates (rg : RowGroup) (predicates : List Predicate) :
    RowIDsOption :=
  if (predicates.filter (fun p => p.1 == timeColumnName)).length == 2 then
    match rg.rowIdsFromPredicatesWithTimeRange predicates with
    | .noRows => .noRows
    | .allRows =>
      rg.predLoop (predicates.filter (fun p => !(p.1 == timeColumnName))) []
    | .someRows ids =>
      rg.predLoop (predicates.filter (fun p => !(p.1 == timeColumnName)))
        (rowIdsUnion [] ids)
  else
    rg.predLoop predicates []

/-- `materialise_rows`: values of each requested column at the selected
rows (all rows for `All`, nothing for `None`). -/
def RowGroup.materialiseRows (rg : RowGroup) (names : List String)
    (rowIds : RowIDsOption) : List (String × List (Option LValue)) :=
  match rowIds with
  | .noRows => []
  | .someRows ids => names.map (fun n => (n, (rg.columnByName n).valuesAt ids))
  | .allRows =>
    names.map (fun n => (n, (rg.columnByName n).valuesAt (List.range rg.rowsCount)))

/-- `read_filter(columns, predicates)`. -/
def RowGroup.readFilter (rg : RowGroup) (columns : List String)
    (predicates : List Predicate) : List (String × List (Option LValue)) :=
  rg.materialiseRows columns (rg.rowIdsFromPredicates predicates)

/-- `MetaData::read_group_could_satisfy_predicate`, translated clause by
clause from the source's operator match. -/
def couldSatisfyPredicate (ranges : List (String × (LValue × LValue)))
    (columnName : String) (predicate : Operator × LValue) : Bool :=
  match ranges.lookup columnName with
  | none => false
  | some (columnMin, columnMax) =>
    match predicate.1 with
    | .equal => columnMin.pLe predicate.2 && columnMax.pGe predicate.2
    | .notEqual => (columnMin != columnMax) || (columnMax != predicate.2)
    | .gt => columnMax.pGt predicate.2
    | .gte => columnMax.pGe predicate.2
    | .lt => columnMin.pLt predicate.2
    | .lte => columnMin.pLe predicate.2

/-- `RowGroup::column_could_satisfy_predicate` delegates to the metadata. -/
def RowGroup.columnCouldSatisfyPredicate (rg : RowGroup) (columnName : String)
    (predicate : Operator × LValue) : Bool :=
  couldSatisfyPredicate rg.columnRangesMeta columnName predicate

/-- `pack_u32_in_u128`: ors an encoded id into the 32-bit lane at `pos`.
No truncation can occur: ids are `u32` and `pos < 4`. -/
def pack_u32_in_u128 (packedValue encodedId : Nat) (pos : Nat) : Nat :=
  packedValue ||| (encodedId <<< (32 * pos))

/-- `unpack_u128_group_key`: the source resizes `dst` to `n` and then
overwrites every entry with `(key >> (i * 32)) as u32`, so the result does
not depend on the contents of `dst`. -/
def unpack_u128_group_key (groupKeyPacked : Nat) (n : Nat) (dst : List Nat) :
    List Nat :=
  (dst.take 0) ++ (List.range n).map (fun i => (groupKeyPacked >>> (i * 32)) % 2 ^ 32)

/-- Lane-by-lane packing of a vector of encoded ids, id `i` at bit offset
`32 * i` — the loop of the packed-key kernel and of the source's
pack/unpack test. -/
def packLanesAux : List Nat → Nat → Nat → Nat
  | [], _, acc => acc
  | id :: rest, pos, acc => packLanesAux rest (pos + 1) (pack_u32_in_u128 acc id pos)

def packLanes (ids : List Nat) : Nat := packLanesAux ids 0 0

/-- The loop of `Ord for GroupKey::cmp`, translated exactly: the first
position whose `partial_cmp` is `Some(ord)` returns `ord` (even when it is
`Equal`); `None` positions are skipped. -/
def groupKeyCmpLoop : List (Option LValue) → List (Option LValue) → Ordering
  | a :: xs, b :: ys =>
    (match pcmpV a b with
     | some ord => ord
     | none => groupKeyCmpLoop xs ys)
  | _, _ => .eq

/-- `GroupKey::cmp`; the arity assertion panic is modelled as `none`. -/
def groupKeyCmp (a b : List (Option LValue)) : Option Ordering :=
  if a.length = b.length then some (groupKeyCmpLoop a b) else none

/-- `updateAggs`: the per-row update of one group's aggregate vector — each
aggregate state consumes its column's value of the current row. -/
def updateAggs (aggs : List AggregateResult) (vals : List (Option LValue)) :
    List AggregateResult :=
  List.zipWith AggregateResult.update aggs vals

/-- The raw-entry upsert of the hash kernels as an insertion-ordered
association list: an occupied key updates in place, a vacant key inserts
the freshly initialised aggregates updated with the current row. -/
def assocUpdate {κ : Type} [DecidableEq κ] (m : List (κ × List AggregateResult))
    (key : κ) (inits : List AggregateResult) (vals : List (Option LValue)) :
    List (κ × List AggregateResult) :=
  match m with
  | [] => [(key, updateAggs inits vals)]
  | (k, a) :: rest =>
    if k = key then (k, updateAggs a vals) :: rest
    else (k, a) :: assocUpdate rest key inits vals

/-- The packed-key loop of `read_group_hash_with_u128_key`: fold each
grouping column's encoded id of this row into the 128-bit key. -/
def packKeyLoop : List (List Nat) → Nat → Nat → Nat → Nat
  | [], _, _, acc => acc
  | colIds :: rest, row, i, acc =>
    packKeyLoop rest row (i + 1) (pack_u32_in_u128 acc (colIds.getD row 0) i)

def packRowKey (groupbyEncodedIds : List (List Nat)) (row : Nat) : Nat :=
  packKeyLoop groupbyEncodedIds row 0 0

/-- The row values fed to the aggregators: `values.value(row)` for each
aggregate column's materialised data. -/
def aggRowValues (aggregateColumnsData : List (List (Option LValue))) (row : Nat) :
    List (Option LValue) :=
  aggregateColumnsData.map (fun vals => vals.getD row none)

/-- `read_group_hash_with_u128_key` as (group key, aggregates) pairs: build
the hash map over all rows, then decode each packed key lane by lane
(`(key >> (col_idx * 32)) as u32`). -/
def readGroupHashWithU128Key (rg : RowGroup) (groupCols : List String)
    (aggCols : List (String × AggregateType)) (groupbyEncodedIds : List (List Nat))
    (aggregateColumnsData : List (List (Option LValue))) :
    List (List (Option LValue) × List AggregateResult) :=
  let totalRows := (groupbyEncodedIds.getD 0 []).length
  let inits := aggCols.map (fun p => AggregateResult.fromType p.2)
  let groups := (List.range totalRows).foldl
    (fun m row =>
      assocUpdate m (packRowKey groupbyEncodedIds row) inits
        (aggRowValues aggregateColumnsData row)) []
  let columns := groupCols.map rg.columnByName
  groups.map (fun p =>
    (columns.enum.map (fun ci => ci.2.decodeId ((p.1 >>> (ci.1 * 32)) % 2 ^ 32)),
     p.2))

/-- The per-row vector key of `read_group_hash_with_vec_key`. -/
def vecRowKey (groupbyEncodedIds : List (List Nat)) (row : Nat) : List Nat :=
  groupbyEncodedIds.map (fun colIds => colIds.getD row 0)

/-- `read_group_hash_with_vec_key` as (group key, aggregates) pairs. -/
def readGroupHashWithVecKey (rg : RowGroup) (groupCols : List String)
    (aggCols : List (String × AggregateType)) (groupbyEncodedIds : List (List Nat))
    (aggregateColumnsData : List (List (Option LValue))) :
    List (List (Option LValue) × List AggregateResult) :=
  let totalRows := (groupbyEncodedIds.getD 0 []).length
  let inits := aggCols.map (fun p => AggregateResult.fromType p.2)
  let groups := (List.range totalRows).foldl
    (fun m row =>
      assocUpdate m (vecRowKey groupbyEncodedIds row) inits
        (aggRowValues aggregateColumnsData row)) []
  let columns := groupCols.map rg.columnByName
  groups.map (fun p =>
    (p.1.enum.map (fun ie => (columns.getD ie.1 ⟨[], true⟩).decodeId ie.2), p.2))

/-- `read_group_single_group_column`: direct-addressed vector indexed by
encoded id.  The `max().unwrap()` of the source panics on zero rows, which
no constructed row group produces. -/
def readGroupSingleGroupColumn (rg : RowGroup) (groupColName : String)
    (aggCols : List (String × AggregateType)) (groupbyEncodedIds : List Nat)
    (aggregateColumnsData : List (List (Option LValue))) :
    List (List (Option LValue) × List AggregateResult) :=
  let column := rg.columnByName groupColName
  let requiredGroups := (groupbyEncodedIds.foldl Nat.max 0) + 1
  let inits := aggCols.map (fun p => AggregateResult.fromType p.2)
  let groups : List (Option (List AggregateResult)) :=
    groupbyEncodedIds.enum.foldl
      (fun gs re =>
        let cur := (gs.getD re.2 none).getD inits
        gs.set re.2 (some (updateAggs cur (aggRowValues aggregateColumnsData re.1))))
      (List.replicate requiredGroups none)
  groups.enum.filterMap (fun ga =>
    ga.2.map (fun aggs => ([column.decodeId ga.1], aggs)))

/-- `multi_cartesian_product`: all combinations, first column slowest. -/
def prodLists {α : Type} : List (List α) → List (List α)
  | [] => [[]]
  | xs :: rest => xs.flatMap (fun x => (prodLists rest).map (fun t => x :: t))

/-- One AND step of the all-RLE intersection loop: intersect the running
accumulator with the next column's bitmap for the candidate id, rejecting
the tuple (`none`) as soon as an intersection is empty. -/
def interStep (acc? : Option (List Nat)) (gi : List (List Nat) × Nat) :
    Option (List Nat) :=
  match acc? with
  | none => none
  | some acc =>
    let inter := rowIdsIntersect acc (gi.1.getD gi.2 [])
    if inter.isEmpty then none else some inter

/-- The intersection loop of `read_group_all_rows_all_rle` for one candidate
tuple: seed from the first column's bitmap (skip if empty), and AND in each
later column's bitmap, rejecting the tuple as soon as an AND is empty. -/
def intersectTuple (encodedGroups : List (List (List Nat))) (t : List Nat) :
    Option (List Nat) :=
  match encodedGroups, t with
  | g0 :: grest, i0 :: irest =>
    let seed := g0.getD i0 []
    if seed.isEmpty then none
    else (List.zip grest irest).foldl interStep (some seed)
  | _, _ => none

/-- The aggregate emission of the all-RLE kernel: the column aggregate
kernels over the group's row ids; `First`/`Last` hit the source's `todo!()`
panic, modelled as `none`. -/
def rleAggregate (c : Column) (typ : AggregateType) (rows : List Nat) :
    Option AggregateResult :=
  match typ with
  | .count => some (.count (c.countAgg rows))
  | .first => none
  | .last => none
  | .min => some (.min (c.minAgg rows))
  | .max => some (.max (c.maxAgg rows))
  | .sum => some (.sum (c.sumAgg rows))

/-- `read_group_all_rows_all_rle` as (group key, aggregates) pairs:
enumerate the Cartesian product of per-column encoded ids, keep the tuples
whose bitmap intersection is non-empty, decode the tuple into a group key
and aggregate over the intersection. -/
def readGroupAllRowsAllRLE (rg : RowGroup) (groupCols : List String)
    (aggCols : List (String × AggregateType)) :
    Option (List (List (Option LValue) × List AggregateResult)) :=
  let gcols := groupCols.map rg.columnByName
  let acols := aggCols.map (fun p => (rg.columnByName p.1, p.2))
  let encodedGroups := gcols.map Column.groupedRowIds
  let groupKeys := prodLists (encodedGroups.map (fun ids => List.range ids.length))
  let realized := groupKeys.filterMap (fun t =>
    (intersectTuple encodedGroups t).map (fun rows => (t, rows)))
  realized.mapM (fun tr =>
    (acols.mapM (fun ct => rleAggregate ct.1 ct.2 tr.2)).map (fun aggs =>
      ((gcols.zip tr.1).map (fun ci => ci.1.decodeId ci.2), aggs)))

/-- `ReadGroupResult` (the group/aggregate column descriptors plus the
parallel group-key and aggregate vectors). -/
structure ReadGroupResult where
  groupColumns : List String
  aggregateColumns : List (String × AggregateType)
  groupKeys : List (List (Option LValue))
  aggregates : List (List AggregateResult)
  deriving DecidableEq, Repr

/-- `read_group(predicates, group_columns, aggregates)`: dispatch to the
all-RLE kernel (empty predicates, all group columns with pre-computed row
ids), else plan row ids and dispatch on the number of grouping columns
(1 → direct-addressed; ≤ 4 → packed u128 key; else vector key).  `none`
models the `todo!()` panic of the all-RLE kernel on `First`/`Last`. -/
def RowGroup.readGroup (rg : RowGroup) (predicates : List Predicate)
    (groupColumns : List String) (aggregates : List (String × AggregateType)) :
    Option ReadGroupResult :=
  let allPre := groupColumns.all (fun n => (rg.columnByName n).preComputedRowIds)
  if predicates.isEmpty && allPre then
    (readGroupAllRowsAllRLE rg groupColumns aggregates).map (fun pairs =>
      ⟨groupColumns, aggregates, pairs.map Prod.fst, pairs.map Prod.snd⟩)
  else
    match rg.rowIdsFromPredicates predicates with
    | .noRows => some ⟨groupColumns, aggregates, [], []⟩
    | ridOpt =>
      let filterRowIds : Option (List Nat) :=
        match ridOpt with
        | .someRows ids => some ids
        | _ => none
      let groupbyEncodedIds := groupColumns.map (fun n =>
        match filterRowIds with
        | some ids => (rg.columnByName n).encodedValues ids
        | none => (rg.columnByName n).allEncodedValues)
      let aggregateColumnsData := aggregates.map (fun p =>
        match filterRowIds with
        | some ids => (rg.columnByName p.1).valuesAt ids
        | none => (rg.columnByName p.1).allValues)
      let pairs :=
        if groupColumns.length = 1 then
          readGroupSingleGroupColumn rg (groupColumns.getD 0 "")
            aggregates (groupbyEncodedIds.getD 0 []) aggregateColumnsData
        else if groupColumns.length ≤ 4 then
          readGroupHashWithU128Key rg groupColumns aggregates groupbyEncodedIds
            aggregateColumnsData
        else
          readGroupHashWithVecKey rg groupColumns aggregates groupbyEncodedIds
            aggregateColumnsData
      some ⟨groupColumns, aggregates, pairs.map Prod.fst, pairs.map Prod.snd⟩

/-! ### Specification-side reference definitions

These state, in the spec's words, what the results should be; the claims
compare them with the translated code above. -/

/-- Whether one row satisfies one predicate (spec §8, filter soundness):
the predicate holds on the row's value of the predicate's column. -/
def predHolds (rg : RowGroup) (p : Predicate) (r : Nat) : Bool :=
  matchesOp p.2.1 p.2.2 ((rg.columnByName p.1).valueAt r)

/-- Rows of `[0, R)` satisfying every predicate of the conjunction. -/
def specMatchingRows (rg : RowGroup) (preds : List Predicate) : List Nat :=
  (List.range rg.rowsCount).filter (fun r => preds.all (fun p => predHolds rg p r))

/-- Stated from the spec (§4.8): the per-operator pruning rule, for the
refinement comparison of claim C4 (`=`: min ≤ v ≤ max; `≠`: min ≠ max or
max ≠ v; `>`: max > v; `≥`: max ≥ v; `<`: min < v; `≤`: min ≤ v; unknown
column: false). -/
def specPrunerRule (ranges : List (String × (LValue × LValue)))
    (columnName : String) (op : Operator) (v : LValue) : Bool :=
  match ranges.lookup columnName with
  | none => false
  | some (mn, mx) =>
    match op with
    | .equal => mn.pLe v && v.pLe mx
    | .notEqual => (mn != mx) || (mx != v)
    | .gt => mx.pGt v
    | .gte => mx.pGe v
    | .lt => mn.pLt v
    | .lte => mn.pLe v

/-- Stated from the spec (data model, C9): lexicographic group-key
comparison — the first differing position decides, equal positions are
skipped. -/
def specLexCmpLoop : List (Option LValue) → List (Option LValue) → Ordering
  | a :: xs, b :: ys =>
    (match pcmpV a b with
     | some .lt => .lt
     | some .gt => .gt
     | _ => specLexCmpLoop xs ys)
  | _, _ => .eq

/-- Stated from the spec: lexicographic comparison of equal-arity keys. -/
def specLexCmp (a b : List (Option LValue)) : Option Ordering :=
  if a.length = b.length then some (specLexCmpLoop a b) else none

/-- The non-null values of a column, in row order. -/
def nonNullValues (c : Column) : List LValue := c.data.filterMap id

/-- Stated from the spec (§3 invariants): the observed non-null extrema of
a column, absent when the column is entirely null. -/
def specColumnExtrema (c : Column) : Option (LValue × LValue) :=
  match nonNullValues c with
  | [] => none
  | v :: vs =>
    some (vs.foldl (fun lo w => if w.pLt lo then w else lo) v,
          vs.foldl (fun hi w => if hi.pLt w then w else hi) v)

/-- A column is well-typed when all its non-null values share one kind
(spec §6: tag columns hold strings, field columns one measurement type,
time columns i64). -/
def Column.wellTyped (c : Column) : Prop :=
  ∀ v ∈ nonNullValues c, ∀ w ∈ nonNullValues c, v.kind = w.kind

instance (c : Column) : Decidable c.wellTyped := by
  unfold Column.wellTyped; infer_instance

/-! ### Concrete row groups used by counterexamples and witnesses -/

def Column.ofInts (xs : List Int) : Column := ⟨xs.map (fun n => some (.int n)), true⟩

def Column.ofStrs (xs : List String) : Column := ⟨xs.map (fun s => some (.str s)), true⟩

/-- The 6-row fixture of spec §8 (name order, as the input map iterates). -/
def fixtureColumns : List (String × ColumnType) :=
  [("counter", .field (Column.ofInts [100, 101, 200, 203, 203, 10])),
   ("env", .tag ⟨[some (.str "prod"), some (.str "prod"), some (.str "stag"),
                  some (.str "prod"), none, none], true⟩),
   ("method", .tag (Column.ofStrs ["GET", "POST", "POST", "POST", "PUT", "GET"])),
   ("region", .tag (Column.ofStrs ["west", "west", "east", "west", "south", "north"])),
   ("time", .time (Column.ofInts [1, 2, 3, 4, 5, 6]))]

def fixture : RowGroup := (RowGroup.new 6 fixtureColumns).getD ⟨0, [], (0, 0), [], 0⟩

/-- Two predicates whose individual row-id sets ({4} and {0, 5}) are
disjoint: no row satisfies their conjunction. -/
def disjointPreds : List Predicate :=
  [("region", (.equal, .str "south")), ("method", (.equal, .str "GET"))]

def predRegionSouth : Predicate := ("region", (.equal, .str "south"))

def predMethodGet : Predicate := ("method", (.equal, .str "GET"))

def predTimeGte5 : Predicate := ("time", (.gte, .int 5))

/-- The per-column success condition of `RowGroup::new`: the column range
exists (`unwrap`), and for a time column it is an i64 pair. -/
def ColumnType.rangeOk : ColumnType → Bool
  | .time c =>
    match c.columnRange with
    | some (LValue.int _, LValue.int _) => true
    | _ => false
  | .tag c => c.columnRange.isSome
  | .field c => c.columnRange.isSome

/-- Two syntactically distinct, individually well-formed time columns. -/
def twoTimeColumns : List (String × ColumnType) :=
  [("time", .time (Column.ofInts [5])), ("time2", .time (Column.ofInts [7]))]

/-- A structurally valid input whose tag column is entirely null. -/
def allNullTagColumns : List (String × ColumnType) :=
  [("env", .tag ⟨[none, none], true⟩), ("time", .time (Column.ofInts [1, 2]))]

/-- Rows of `[0, R)` whose tuple of group-column values equals `key`. -/
def tupleRows (gcols : List Column) (R : Nat) (key : List (Option LValue)) : List Nat :=
  (List.range R).filter (fun r => decide (gcols.map (fun c => c.valueAt r) = key))

/-- The aggregates of one group computed independently, column kernel by
column kernel, over the group's rows (spec §8, group soundness). -/
def refAggList (acols : List (Column × AggregateType)) (rows : List Nat) :
    List AggregateResult :=
  acols.map (fun ct =>
    match ct.2 with
    | AggregateType.count => .count (ct.1.countAgg rows)
    | AggregateType.sum => .sum (ct.1.sumAgg rows)
    | AggregateType.min => .min (ct.1.minAgg rows)
    | AggregateType.max => .max (ct.1.maxAgg rows)
    | AggregateType.first => .first
    | AggregateType.last => .last)

/-! ### Theorems -/

/-- Claim C1: the claim is refuted by the code.  On the 6-row fixture the
conjunction region = south ∧ method = GET is satisfied by no row, yet the
predicate planner returns `All` (its accumulator goes empty after two
disjoint `Some` results and the final mapping misreads that as "nothing was
restrictive"), so `read_filter` materialises all six rows instead of none. -/
theorem C1_filter_unsound_on_disjoint_conjunction :
    specMatchingRows fixture disjointPreds = [] ∧
    fixture.rowIdsFromPredicates disjointPreds = .allRows ∧
    (fixture.readFilter ["region"] disjointPreds).map (fun p => p.2.length) = [6] := by
  decide

/-- Claim C2: the claim is refuted by the code.  `read_group` relies on the
same predicate planner, so for the unsatisfiable conjunction
region = south ∧ method = GET it aggregates over all six rows and emits
five groups where the claim requires zero. -/
theorem C2_read_group_unsound_on_disjoint_conjunction :
    specMatchingRows fixture disjointPreds = [] ∧
    (fixture.readGroup disjointPreds ["region", "method"] [("counter", .sum)]).map
      (fun r => r.groupKeys.length) = some 5 := by
  decide

/-- Claim C3: the claim is refuted by the code.  The two orders of the same
three predicates (row-id sets {4}, {0,5}, {4,5}) give different planner
results: in one order the accumulator goes empty and is re-seeded by the
third predicate (yielding rows {4,5}); in the other it goes empty last and
the planner answers `All`. -/
theorem C3_planner_not_permutation_invariant :
    List.Perm [predRegionSouth, predMethodGet, predTimeGte5]
      [predRegionSouth, predTimeGte5, predMethodGet] ∧
    fixture.rowIdsFromPredicates [predRegionSouth, predMethodGet, predTimeGte5]
      = .someRows [4, 5] ∧
    fixture.rowIdsFromPredicates [predRegionSouth, predTimeGte5, predMethodGet]
      = .allRows := by
  decide

/-- Claim C9: the claim is refuted by the code.  `GroupKey::cmp` returns at
the first position whose `partial_cmp` is `Some(ord)` even when `ord` is
`Equal`, so the distinct keys (foo, zoo) and (foo, bar) compare `Equal`
where lexicographic comparison gives `Greater`. -/
theorem C9_group_key_cmp_not_lexicographic :
    groupKeyCmp [some (.str "foo"), some (.str "zoo")]
      [some (.str "foo"), some (.str "bar")] = some .eq ∧
    [some (LValue.str "foo"), some (LValue.str "zoo")] ≠
      [some (LValue.str "foo"), some (LValue.str "bar")] ∧
    specLexCmp [some (.str "foo"), some (.str "zoo")]
      [some (.str "foo"), some (.str "bar")] = some .gt := by
  decide

/-- Claim C6 (counterexample): an input with two time columns does not
panic — construction succeeds, the later time column simply winning. -/
theorem C6_counterexample_two_time_columns :
    (RowGroup.new 1 twoTimeColumns).isSome = true := by
  decide

/-- Claim C7 (counterexample): construction with an entirely-null tag
column panics (the source unwraps `column_range()`), instead of succeeding
with the range entry absent. -/
theorem C7_counterexample_all_null_tag_column :
    RowGroup.new 2 allNullTagColumns = none := by
  decide

/-- An empty column (zero rows) has no value range. -/
theorem columnRange_none_of_numRows_zero (c : Column) (h : c.numRows = 0) :
    c.columnRange = none := by
  have hd : c.data = [] := List.length_eq_zero.mp h
  simp [Column.columnRange, hd]

/-- A column without a value range fails the construction range check. -/
theorem rangeOk_false_of_range_none (ct : ColumnType) (h : ct.col.columnRange = none) :
    ct.rangeOk = false := by
  cases ct <;> simp_all [ColumnType.rangeOk, ColumnType.col]

/-- The construction loop succeeds exactly when every column passes the row
count assertion and the range unwrap (with the time-range i64 match). -/
theorem buildColumns_isSome (cols : List (String × ColumnType)) :
    ∀ (st : BuildState) (rows : Nat),
      (buildColumns cols st rows).isSome =
        cols.all (fun p => (p.2.col.numRows == rows) && p.2.rangeOk) := by
  induction cols with
  | nil => intro st rows; simp [buildColumns]
  | cons hd tl ih =>
    intro st rows
    obtain ⟨name, ct⟩ := hd
    cases ct with
    | tag c =>
      by_cases hrows : c.numRows = rows
      · cases hr : c.columnRange with
        | none => simp [buildColumns, ColumnType.col, ColumnType.rangeOk, hrows, hr]
        | some r => simp [buildColumns, ColumnType.col, ColumnType.rangeOk, hrows, hr, ih]
      · simp [buildColumns, ColumnType.col, hrows]
    | field c =>
      by_cases hrows : c.numRows = rows
      · cases hr : c.columnRange with
        | none => simp [buildColumns, ColumnType.col, ColumnType.rangeOk, hrows, hr]
        | some r => simp [buildColumns, ColumnType.col, ColumnType.rangeOk, hrows, hr, ih]
      · simp [buildColumns, ColumnType.col, hrows]
    | time c =>
      by_cases hrows : c.numRows = rows
      · cases hr : c.columnRange with
        | none => simp [buildColumns, ColumnType.col, ColumnType.rangeOk, hrows, hr]
        | some r =>
          obtain ⟨lo, hi⟩ := r
          cases lo <;> cases hi <;>
            simp [buildColumns, ColumnType.col, ColumnType.rangeOk, hrows, hr, ih]
      · simp [buildColumns, ColumnType.col, hrows]

/-- After a successful construction loop the time index is set iff it was
already set or some processed column was a time column. -/
theorem buildColumns_timeIdx (cols : List (String × ColumnType)) :
    ∀ (st : BuildState) (rows : Nat) (st' : BuildState),
      buildColumns cols st rows = some st' →
      st'.timeIdx.isSome = (st.timeIdx.isSome || cols.any (fun p => p.2.isTime)) := by
  induction cols with
  | nil =>
    intro st rows st' h
    simp [buildColumns] at h
    subst h; simp
  | cons hd tl ih =>
    intro st rows st' h
    obtain ⟨name, ct⟩ := hd
    cases ct with
    | tag c =>
      by_cases hrows : c.numRows = rows
      · cases hr : c.columnRange with
        | none => simp [buildColumns, ColumnType.col, hrows, hr] at h
        | some r =>
          simp only [buildColumns, ColumnType.col, hrows, hr] at h
          simp at h
          rw [ih _ _ _ h]
          simp [ColumnType.isTime]
      · simp [buildColumns, ColumnType.col, hrows] at h
    | field c =>
      by_cases hrows : c.numRows = rows
      · cases hr : c.columnRange with
        | none => simp [buildColumns, ColumnType.col, hrows, hr] at h
        | some r =>
          simp only [buildColumns, ColumnType.col, hrows, hr] at h
          simp at h
          rw [ih _ _ _ h]
          simp [ColumnType.isTime]
      · simp [buildColumns, ColumnType.col, hrows] at h
    | time c =>
      by_cases hrows : c.numRows = rows
      · cases hr : c.columnRange with
        | none => simp [buildColumns, ColumnType.col, hrows, hr] at h
        | some r =>
          obtain ⟨lo, hi⟩ := r
          cases lo <;> cases hi <;>
            (simp only [buildColumns, ColumnType.col, hrows, hr] at h; simp at h);
            (rw [ih _ _ _ h]; simp [ColumnType.isTime])
      · simp [buildColumns, ColumnType.col, hrows] at h

/-- A successful construction loop appends exactly the processed columns
and, for each, its unwrapped range entry. -/
theorem buildColumns_spec (cols : List (String × ColumnType)) :
    ∀ (st : BuildState) (rows : Nat) (st' : BuildState),
      buildColumns cols st rows = some st' →
      st'.cols = st.cols ++ cols.map (fun p => (p.1, p.2.col)) ∧
      st'.ranges = st.ranges ++ cols.filterMap
        (fun p => (p.2.col.columnRange).map (fun r => (p.1, r))) := by
  induction cols with
  | nil =>
    intro st rows st' h
    simp [buildColumns] at h
    subst h; simp
  | cons hd tl ih =>
    intro st rows st' h
    obtain ⟨name, ct⟩ := hd
    cases ct with
    | tag c =>
      by_cases hrows : c.numRows = rows
      · cases hr : c.columnRange with
        | none => simp [buildColumns, ColumnType.col, hrows, hr] at h
        | some r =>
          simp only [buildColumns, ColumnType.col, hrows, hr] at h
          simp at h
          obtain ⟨h1, h2⟩ := ih _ _ _ h
          constructor
          · rw [h1]; simp [ColumnType.col]
          · rw [h2]; simp [ColumnType.col, hr]
      · simp [buildColumns, ColumnType.col, hrows] at h
    | field c =>
      by_cases hrows : c.numRows = rows
      · cases hr : c.columnRange with
        | none => simp [buildColumns, ColumnType.col, hrows, hr] at h
        | some r =>
          simp only [buildColumns, ColumnType.col, hrows, hr] at h
          simp at h
          obtain ⟨h1, h2⟩ := ih _ _ _ h
          constructor
          · rw [h1]; simp [ColumnType.col]
          · rw [h2]; simp [ColumnType.col, hr]
      · simp [buildColumns, ColumnType.col, hrows] at h
    | time c =>
      by_cases hrows : c.numRows = rows
      · cases hr : c.columnRange with
        | none => simp [buildColumns, ColumnType.col, hrows, hr] at h
        | some r =>
          obtain ⟨lo, hi⟩ := r
          cases lo <;> cases hi <;>
            (simp only [buildColumns, ColumnType.col, hrows, hr] at h; simp at h);
            (obtain ⟨h1, h2⟩ := ih _ _ _ h
             exact ⟨by rw [h1]; simp [ColumnType.col],
                    by rw [h2]; simp [ColumnType.col, hr]⟩)
      · simp [buildColumns, ColumnType.col, hrows] at h

/-- `RowGroup::new` succeeds exactly when every column has the required row
count and a well-formed value range and some column is a time column. -/
theorem new_isSome (rows : Nat) (columns : List (String × ColumnType)) :
    (RowGroup.new rows columns).isSome =
      (columns.all (fun p => (p.2.col.numRows == rows) && p.2.rangeOk) &&
       columns.any (fun p => p.2.isTime)) := by
  have hall := buildColumns_isSome columns ⟨[], (0, 0), [], none⟩ rows
  unfold RowGroup.new
  cases hb : buildColumns columns ⟨[], (0, 0), [], none⟩ rows with
  | none =>
    rw [hb] at hall
    simp only [Option.isSome_none] at hall
    rw [← hall]
    simp
  | some st =>
    rw [hb] at hall
    simp only [Option.isSome_some] at hall
    have htime := buildColumns_timeIdx columns ⟨[], (0, 0), [], none⟩ rows st hb
    simp only [Option.isSome_none, Bool.false_or] at htime
    cases ht : st.timeIdx with
    | none =>
      rw [ht] at htime
      simp only [Option.isSome_none] at htime
      simp [ht, ← hall, ← htime]
    | some t =>
      rw [ht] at htime
      simp only [Option.isSome_some] at htime
      simp [ht, ← hall, ← htime]

/-- The fields of a successfully constructed row group, in terms of the
construction input. -/
theorem new_fields (rows : Nat) (columns : List (String × ColumnType))
    (rg : RowGroup) (h : RowGroup.new rows columns = some rg) :
    rg.rowsCount = rows ∧
    rg.columns = columns.map (fun p => (p.1, p.2.col)) ∧
    rg.columnRangesMeta = columns.filterMap
      (fun p => (p.2.col.columnRange).map (fun r => (p.1, r))) := by
  unfold RowGroup.new at h
  split at h
  · exact absurd h (by simp)
  · rename_i st hb
    split at h
    · exact absurd h (by simp)
    · rename_i t ht
      obtain ⟨h1, h2⟩ := buildColumns_spec columns ⟨[], (0, 0), [], none⟩ rows st hb
      simp only [Option.some_inj] at h
      subst h
      simp only [List.nil_append] at h1 h2
      exact ⟨rfl, h1, h2⟩

/-- Claim C10: a zero-row row group can never be constructed.  Either there
is no time column (the final unwrap panics) or some column exists, has zero
rows by the row-count assertion, and therefore has no value range, which
the range unwrap rejects. -/
theorem C10_zero_row_group_never_constructed (columns : List (String × ColumnType)) :
    RowGroup.new 0 columns = none := by
  cases hn : RowGroup.new 0 columns with
  | none => rfl
  | some rg =>
    exfalso
    have hs := new_isSome 0 columns
    rw [hn] at hs
    simp only [Option.isSome_some] at hs
    have hs' := hs.symm
    rw [Bool.and_eq_true] at hs'
    obtain ⟨hall, hany⟩ := hs'
    rw [List.any_eq_true] at hany
    obtain ⟨p, hmem, _⟩ := hany
    have hp := (List.all_eq_true.mp hall) p hmem
    rw [Bool.and_eq_true] at hp
    obtain ⟨hcnt, hok⟩ := hp
    have hzero : p.2.col.numRows = 0 := by simpa using hcnt
    have hnone := columnRange_none_of_numRows_zero _ hzero
    have hfalse := rangeOk_false_of_range_none p.2 hnone
    rw [hfalse] at hok
    exact Bool.false_ne_true hok


/-- Claim C6 (amended): `RowGroup::new` constructs successfully iff every
column has row count R and a well-formed value range (some non-null value;
for a time column an i64 pair) and at least one time column exists.  It
panics on any all-null column (not only the time column), and it does not
panic on multiple time columns — the last one in map order wins. -/
theorem C6_new_succeeds_iff (rows : Nat) (columns : List (String × ColumnType)) :
    (RowGroup.new rows columns).isSome =
      (columns.all (fun p => (p.2.col.numRows == rows) && p.2.rangeOk) &&
       columns.any (fun p => p.2.isTime)) :=
  new_isSome rows columns

/-- Skipping NULLs: the range fold visits exactly the non-null values. -/
theorem foldl_rangeStep_filterMap (l : List (Option LValue)) :
    ∀ acc, l.foldl rangeStep acc =
      (l.filterMap id).foldl (fun a v => rangeStep a (some v)) acc := by
  induction l with
  | nil => intro acc; simp
  | cons hd tl ih =>
    intro acc
    cases hd with
    | none => simpa [rangeStep] using ih acc
    | some v => simpa using ih (rangeStep acc (some v))

/-- Once seeded, the range fold is the pair of the running-min and
running-max folds. -/
theorem foldl_rangeStep_pair (vs : List LValue) :
    ∀ lo hi, vs.foldl (fun a v => rangeStep a (some v)) (some (lo, hi)) =
      some (vs.foldl (fun l w => if w.pLt l then w else l) lo,
            vs.foldl (fun h w => if h.pLt w then w else h) hi) := by
  induction vs with
  | nil => intro lo hi; rfl
  | cons v vs ih => intro lo hi; simpa [rangeStep] using ih _ _

/-- The modelled `column_range()` computes exactly the spec's observed
non-null extrema. -/
theorem columnRange_eq_specExtrema (c : Column) :
    c.columnRange = specColumnExtrema c := by
  unfold Column.columnRange specColumnExtrema
  rw [foldl_rangeStep_filterMap]
  unfold nonNullValues
  cases hv : c.data.filterMap id with
  | nil => rfl
  | cons v vs =>
    simp only [List.foldl_cons]
    have : rangeStep none (some v) = some (v, v) := rfl
    rw [this, foldl_rangeStep_pair]

/-- A column that passes the construction range check has a range. -/
theorem range_isSome_of_rangeOk (ct : ColumnType) (h : ct.rangeOk = true) :
    (ct.col.columnRange).isSome := by
  cases ct with
  | tag c => simpa [ColumnType.rangeOk, ColumnType.col] using h
  | field c => simpa [ColumnType.rangeOk, ColumnType.col] using h
  | time c =>
    cases hr : c.columnRange with
    | none => rw [ColumnType.rangeOk, hr] at h; exact absurd h (by simp)
    | some r => simp [ColumnType.col, hr]

/-- With distinct column names, looking a column's name up in the collected
range entries yields exactly that column's range. -/
theorem lookup_ranges_of_mem (cols : List (String × ColumnType)) :
    ((cols.map Prod.fst).Nodup) →
    (∀ p ∈ cols, (p.2.col.columnRange).isSome) →
    ∀ n c, (n, c) ∈ cols.map (fun p => (p.1, p.2.col)) →
      (cols.filterMap (fun p => (p.2.col.columnRange).map (fun r => (p.1, r)))).lookup n
        = c.columnRange := by
  induction cols with
  | nil => intro _ _ n c h; simp at h
  | cons hd tl ih =>
    intro hnd hall n c hmem
    obtain ⟨n0, ct0⟩ := hd
    have h0 : (ct0.col.columnRange).isSome := hall _ (List.mem_cons_self _ _)
    rw [List.map_cons, List.nodup_cons] at hnd
    obtain ⟨hn0, hndtl⟩ := hnd
    cases hr : ct0.col.columnRange with
    | none => rw [hr] at h0; exact absurd h0 (by simp)
    | some r =>
      rw [List.filterMap_cons]
      simp only [hr, Option.map_some']
      rw [List.map_cons] at hmem
      rcases List.mem_cons.mp hmem with heq | htl
      · have hn : n = n0 := congrArg Prod.fst heq
        have hc : c = ct0.col := congrArg Prod.snd heq
        subst hn; subst hc
        simp [List.lookup, hr]
      · have hn : n ≠ n0 := by
          intro hcontra
          subst hcontra
          apply hn0
          have h1 : n ∈ (tl.map (fun p => (p.1, p.2.col))).map Prod.fst :=
            List.mem_map_of_mem Prod.fst htl
          rw [List.map_map] at h1
          simpa using h1
        have hbeq : (n == n0) = false := by
          simp only [beq_eq_false_iff_ne, ne_eq]
          exact hn
        simp only [List.lookup, hbeq]
        exact ih hndtl (fun p hp => hall p (List.mem_cons_of_mem _ hp)) n c htl

/-- Claim C7 (amended, the counterexample forces the first conjunct): an
entirely-null tag or field column makes construction panic instead of
succeeding with an absent range entry; in any successfully constructed row
group every column's range entry equals its observed non-null extrema; and
a predicate on a name with no range entry is reported unsatisfiable by the
metadata. -/
theorem C7_ranges_are_extrema_and_all_null_panics (rows : Nat)
    (columns : List (String × ColumnType)) (rg : RowGroup)
    (h : RowGroup.new rows columns = some rg)
    (hnd : (columns.map Prod.fst).Nodup) :
    (∀ n c, (n, c) ∈ rg.columns →
        rg.columnRangesMeta.lookup n = specColumnExtrema c) ∧
    (∀ n p, rg.columnRangesMeta.lookup n = none →
        rg.columnCouldSatisfyPredicate n p = false) ∧
    (∀ (rows2 : Nat) (cols2 : List (String × ColumnType)),
        (∃ p ∈ cols2, nonNullValues p.2.col = []) →
        RowGroup.new rows2 cols2 = none) := by
  obtain ⟨hrows, hcols, hmeta⟩ := new_fields rows columns rg h
  have hsome : (RowGroup.new rows columns).isSome := by rw [h]; rfl
  rw [new_isSome] at hsome
  rw [Bool.and_eq_true] at hsome
  obtain ⟨hall, _⟩ := hsome
  have hallSome : ∀ p ∈ columns, (p.2.col.columnRange).isSome := by
    intro p hp
    have := (List.all_eq_true.mp hall) p hp
    rw [Bool.and_eq_true] at this
    exact range_isSome_of_rangeOk p.2 this.2
  refine ⟨?_, ?_, ?_⟩
  · intro n c hmem
    rw [hcols] at hmem
    rw [hmeta, lookup_ranges_of_mem columns hnd hallSome n c hmem]
    exact columnRange_eq_specExtrema c
  · intro n p hnone
    unfold RowGroup.columnCouldSatisfyPredicate couldSatisfyPredicate
    rw [hnone]
  · intro rows2 cols2 hex
    obtain ⟨p, hp, hnull⟩ := hex
    have hrange : p.2.col.columnRange = none := by
      rw [columnRange_eq_specExtrema]
      unfold specColumnExtrema
      rw [hnull]
    cases hn2 : RowGroup.new rows2 cols2 with
    | none => rfl
    | some rg2 =>
      exfalso
      have hs := new_isSome rows2 cols2
      rw [hn2] at hs
      simp only [Option.isSome_some] at hs
      have hs' := hs.symm
      rw [Bool.and_eq_true] at hs'
      have hp2 := (List.all_eq_true.mp hs'.1) p hp
      rw [Bool.and_eq_true] at hp2
      have := rangeOk_false_of_range_none p.2 hrange
      rw [this] at hp2
      exact Bool.false_ne_true hp2.2

/-- Witness for C7 at the 6-row fixture. -/
theorem C7_ranges_are_extrema_and_all_null_panics_witness :
    RowGroup.new 6 fixtureColumns = some fixture ∧
    (fixtureColumns.map Prod.fst).Nodup ∧
    ((∀ n c, (n, c) ∈ fixture.columns →
        fixture.columnRangesMeta.lookup n = specColumnExtrema c) ∧
     (∀ n p, fixture.columnRangesMeta.lookup n = none →
        fixture.columnCouldSatisfyPredicate n p = false) ∧
     (∀ (rows2 : Nat) (cols2 : List (String × ColumnType)),
        (∃ p ∈ cols2, nonNullValues p.2.col = []) →
        RowGroup.new rows2 cols2 = none)) :=
  ⟨by decide, by decide,
   C7_ranges_are_extrema_and_all_null_panics 6 fixtureColumns fixture
     (by decide) (by decide)⟩

/-! ### Order toolkit for logical values -/

theorem cmp3_eq_lt {α : Type} [LinearOrder α] {a b : α} : cmp3 a b = .lt ↔ a < b := by
  unfold cmp3
  split_ifs with h1 h2
  · simp [h1]
  · exact iff_of_false (by simp) h1
  · exact iff_of_false (by simp) h1

theorem cmp3_eq_eq {α : Type} [LinearOrder α] {a b : α} : cmp3 a b = .eq ↔ a = b := by
  unfold cmp3
  split_ifs with h1 h2
  · exact iff_of_false (by simp) (ne_of_lt h1)
  · simp [h2]
  · exact iff_of_false (by simp) h2

theorem cmp3_eq_gt {α : Type} [LinearOrder α] {a b : α} : cmp3 a b = .gt ↔ b < a := by
  unfold cmp3
  split_ifs with h1 h2
  · exact iff_of_false (by simp) (lt_asymm h1)
  · exact iff_of_false (by simp) (by simp [h2])
  · exact iff_of_true rfl
      (lt_of_le_of_ne (le_of_not_lt h1) (fun hba => h2 hba.symm))

theorem cmp3_swap {α : Type} [LinearOrder α] (a b : α) :
    cmp3 b a = (cmp3 a b).swap := by
  rcases lt_trichotomy a b with h | h | h
  · rw [cmp3_eq_lt.mpr h, cmp3_eq_gt.mpr h]; rfl
  · subst h; rw [cmp3_eq_eq.mpr rfl]; rfl
  · rw [cmp3_eq_gt.mpr h, cmp3_eq_lt.mpr h]; rfl

theorem charToNat_inj {a b : Char} (h : a.toNat = b.toNat) : a = b :=
  Char.ext (UInt32.toNat.inj h)

theorem strCmpAux_eq_eq (x : List Char) : ∀ y, strCmpAux x y = .eq ↔ x = y := by
  induction x with
  | nil => intro y; cases y <;> simp [strCmpAux]
  | cons a xs ih =>
    intro y
    cases y with
    | nil => simp [strCmpAux]
    | cons b ys =>
      unfold strCmpAux
      cases hc : cmp3 a.toNat b.toNat with
      | lt =>
        have hne : a ≠ b := fun he => by
          rw [he] at hc
          rw [cmp3_eq_eq.mpr rfl] at hc
          exact absurd hc (by simp)
        simp [hne]
      | eq =>
        have hab : a = b := charToNat_inj (cmp3_eq_eq.mp hc)
        rw [ih ys]
        simp [hab]
      | gt =>
        have hne : a ≠ b := fun he => by
          rw [he] at hc
          rw [cmp3_eq_eq.mpr rfl] at hc
          exact absurd hc (by simp)
        simp [hne]

theorem strCmpAux_swap (x : List Char) :
    ∀ y, strCmpAux y x = (strCmpAux x y).swap := by
  induction x with
  | nil => intro y; cases y <;> simp [strCmpAux, Ordering.swap]
  | cons a xs ih =>
    intro y
    cases y with
    | nil => simp [strCmpAux, Ordering.swap]
    | cons b ys =>
      show strCmpAux (b :: ys) (a :: xs) = (strCmpAux (a :: xs) (b :: ys)).swap
      unfold strCmpAux
      rw [cmp3_swap a.toNat b.toNat]
      cases hc : cmp3 a.toNat b.toNat <;> simp [Ordering.swap, ih ys]

theorem strCmpAux_lt_trans (x : List Char) :
    ∀ y z, strCmpAux x y = .lt → strCmpAux y z = .lt → strCmpAux x z = .lt := by
  induction x with
  | nil =>
    intro y z h1 h2
    cases y with
    | nil => exact absurd h1 (by simp [strCmpAux])
    | cons b ys =>
      cases z with
      | nil => exact absurd h2 (by simp [strCmpAux])
      | cons c zs => simp [strCmpAux]
  | cons a xs ih =>
    intro y z h1 h2
    cases y with
    | nil => exact absurd h1 (by simp [strCmpAux])
    | cons b ys =>
      cases z with
      | nil => exact absurd h2 (by simp [strCmpAux])
      | cons c zs =>
        rw [strCmpAux] at h1 h2 ⊢
        cases hab : cmp3 a.toNat b.toNat with
        | gt => rw [hab] at h1; exact absurd h1 (by simp)
        | lt =>
          rw [hab] at h1
          have hab' := cmp3_eq_lt.mp hab
          cases hbc : cmp3 b.toNat c.toNat with
          | gt => rw [hbc] at h2; exact absurd h2 (by simp)
          | lt =>
            have hbc' := cmp3_eq_lt.mp hbc
            rw [cmp3_eq_lt.mpr (lt_trans hab' hbc')]
          | eq =>
            have hbc' := cmp3_eq_eq.mp hbc
            rw [cmp3_eq_lt.mpr (hbc' ▸ hab')]
        | eq =>
          rw [hab] at h1
          have hab' := cmp3_eq_eq.mp hab
          cases hbc : cmp3 b.toNat c.toNat with
          | gt => rw [hbc] at h2; exact absurd h2 (by simp)
          | lt =>
            have hbc' := cmp3_eq_lt.mp hbc
            rw [cmp3_eq_lt.mpr (hab' ▸ hbc')]
          | eq =>
            have hbc' := cmp3_eq_eq.mp hbc
            rw [hbc] at h2
            rw [cmp3_eq_eq.mpr (hab'.trans hbc')]
            exact ih ys zs h1 h2

theorem strCmp_eq_eq {a b : String} : strCmp a b = .eq ↔ a = b := by
  rw [strCmp, strCmpAux_eq_eq, String.ext_iff]

theorem strCmp_swap (a b : String) : strCmp b a = (strCmp a b).swap :=
  strCmpAux_swap a.data b.data

theorem strCmp_lt_trans {a b c : String} (h1 : strCmp a b = .lt)
    (h2 : strCmp b c = .lt) : strCmp a c = .lt :=
  strCmpAux_lt_trans a.data b.data c.data h1 h2

theorem pcmp_isSome_iff_kind {a b : LValue} :
    (a.pcmp b).isSome ↔ a.kind = b.kind := by
  cases a <;> cases b <;> simp [LValue.pcmp, LValue.kind]

theorem pcmp_eq_eq {a b : LValue} : a.pcmp b = some .eq ↔ a = b := by
  cases a <;> cases b <;> simp [LValue.pcmp, strCmp_eq_eq, cmp3_eq_eq]

theorem pcmp_swap (a b : LValue) : b.pcmp a = (a.pcmp b).map Ordering.swap := by
  cases a <;> cases b <;>
    first
    | rfl
    | (simp only [LValue.pcmp, Option.map_some']; rw [strCmp_swap])
    | (simp only [LValue.pcmp, Option.map_some']; rw [cmp3_swap])

theorem pcmp_lt_trans {a b c : LValue} (h1 : a.pcmp b = some .lt)
    (h2 : b.pcmp c = some .lt) : a.pcmp c = some .lt := by
  cases a <;> cases b <;> cases c <;> simp_all [LValue.pcmp] <;>
    first
    | exact strCmp_lt_trans h1 h2
    | exact cmp3_eq_lt.mpr (lt_trans (cmp3_eq_lt.mp h1) (cmp3_eq_lt.mp h2))

theorem pLe_iff {a b : LValue} :
    a.pLe b = true ↔ (a.pcmp b = some .lt ∨ a.pcmp b = some .eq) := by
  simp [LValue.pLe]

theorem pLt_iff {a b : LValue} : a.pLt b = true ↔ a.pcmp b = some .lt := by
  simp [LValue.pLt]

theorem pGt_iff {a b : LValue} : a.pGt b = true ↔ a.pcmp b = some .gt := by
  simp [LValue.pGt]

theorem pLe_refl (a : LValue) : a.pLe a = true :=
  pLe_iff.mpr (Or.inr (pcmp_eq_eq.mpr rfl))

theorem pLe_trans {a b c : LValue} (h1 : a.pLe b = true) (h2 : b.pLe c = true) :
    a.pLe c = true := by
  rcases pLe_iff.mp h1 with h1' | h1'
  · rcases pLe_iff.mp h2 with h2' | h2'
    · exact pLe_iff.mpr (Or.inl (pcmp_lt_trans h1' h2'))
    · have hbc := pcmp_eq_eq.mp h2'; subst hbc; exact h1
  · have hab := pcmp_eq_eq.mp h1'; subst hab; exact h2

theorem pLt_pLe_trans {a b c : LValue} (h1 : a.pcmp b = some .lt)
    (h2 : b.pLe c = true) : a.pcmp c = some .lt := by
  rcases pLe_iff.mp h2 with h2' | h2'
  · exact pcmp_lt_trans h1 h2'
  · have hbc := pcmp_eq_eq.mp h2'; subst hbc; exact h1

theorem pLe_pLt_trans {a b c : LValue} (h1 : a.pLe b = true)
    (h2 : b.pcmp c = some .lt) : a.pcmp c = some .lt := by
  rcases pLe_iff.mp h1 with h1' | h1'
  · exact pcmp_lt_trans h1' h2
  · have hab := pcmp_eq_eq.mp h1'; subst hab; exact h2

theorem pLe_antisymm {a b : LValue} (h1 : a.pLe b = true) (h2 : b.pLe a = true) :
    a = b := by
  rcases pLe_iff.mp h1 with h1' | h1'
  · rcases pLe_iff.mp h2 with h2' | h2'
    · have := pcmp_lt_trans h1' h2'
      rw [pcmp_eq_eq.mpr rfl] at this
      exact absurd this (by simp)
    · exact (pcmp_eq_eq.mp h2').symm
  · exact pcmp_eq_eq.mp h1'

theorem pGe_eq_pLe (a b : LValue) : a.pGe b = b.pLe a := by
  have hs := pcmp_swap b a
  unfold LValue.pGe LValue.pLe
  rw [hs]
  cases b.pcmp a with
  | none => rfl
  | some o => cases o <;> rfl

theorem pLe_of_not_pLt {u v : LValue} (hk : u.kind = v.kind)
    (h : u.pLt v = false) : v.pLe u = true := by
  have hsome : (u.pcmp v).isSome := pcmp_isSome_iff_kind.mpr hk
  cases ho : u.pcmp v with
  | none => rw [ho] at hsome; exact absurd hsome (by simp)
  | some o =>
    cases o with
    | lt => rw [pLt_iff.mpr ho] at h; exact absurd h (by simp)
    | eq =>
      have := pcmp_eq_eq.mp ho; subst this
      exact pLe_refl u
    | gt =>
      have hs := pcmp_swap u v
      rw [ho] at hs
      exact pLe_iff.mpr (Or.inl hs)

theorem foldl_min_mem_and_le (vs : List LValue) :
    ∀ v : LValue, (∀ w ∈ vs, w.kind = v.kind) →
      (vs.foldl (fun l w => if w.pLt l then w else l) v) ∈ v :: vs ∧
      ∀ w ∈ v :: vs, (vs.foldl (fun l w => if w.pLt l then w else l) v).pLe w = true := by
  induction vs with
  | nil =>
    intro v _
    refine ⟨by simp, ?_⟩
    intro w hw
    rw [List.mem_singleton] at hw
    subst hw
    exact pLe_refl w
  | cons u vs ih =>
    intro v hk
    have hku : u.kind = v.kind := hk u (List.mem_cons_self u vs)
    simp only [List.foldl_cons]
    have hk1 : ∀ w ∈ vs, w.kind = (if u.pLt v then u else v).kind := by
      intro w hw
      have hwv := hk w (List.mem_cons_of_mem u hw)
      split <;> simp [hwv, hku]
    obtain ⟨hmem, hle⟩ := ih (if u.pLt v then u else v) hk1
    have hacc1v : (if u.pLt v then u else v).pLe v = true := by
      split
      · rename_i hlt
        exact pLe_iff.mpr (Or.inl (pLt_iff.mp hlt))
      · exact pLe_refl v
    have hacc1u : (if u.pLt v then u else v).pLe u = true := by
      split
      · exact pLe_refl u
      · rename_i hnlt
        exact pLe_of_not_pLt hku (Bool.not_eq_true _ ▸ eq_false_of_ne_true hnlt)
    have hhead := hle (if u.pLt v then u else v) (List.mem_cons_self _ _)
    constructor
    · rcases List.mem_cons.mp hmem with hfe | hfm
      · rw [hfe]
        split
        · exact List.mem_cons_of_mem v (List.mem_cons_self u vs)
        · exact List.mem_cons_self v (u :: vs)
      · exact List.mem_cons_of_mem v (List.mem_cons_of_mem u hfm)
    · intro w hw
      rcases List.mem_cons.mp hw with hwv | hw'
      · subst hwv
        exact pLe_trans hhead hacc1v
      · rcases List.mem_cons.mp hw' with hwu | hwm
        · subst hwu
          exact pLe_trans hhead hacc1u
        · exact hle w (List.mem_cons_of_mem _ hwm)

theorem foldl_max_mem_and_ge (vs : List LValue) :
    ∀ v : LValue, (∀ w ∈ vs, w.kind = v.kind) →
      (vs.foldl (fun h w => if h.pLt w then w else h) v) ∈ v :: vs ∧
      ∀ w ∈ v :: vs, w.pLe (vs.foldl (fun h w => if h.pLt w then w else h) v) = true := by
  induction vs with
  | nil =>
    intro v _
    refine ⟨by simp, ?_⟩
    intro w hw
    rw [List.mem_singleton] at hw
    subst hw
    exact pLe_refl w
  | cons u vs ih =>
    intro v hk
    have hku : u.kind = v.kind := hk u (List.mem_cons_self u vs)
    simp only [List.foldl_cons]
    have hk1 : ∀ w ∈ vs, w.kind = (if v.pLt u then u else v).kind := by
      intro w hw
      have hwv := hk w (List.mem_cons_of_mem u hw)
      split <;> simp [hwv, hku]
    obtain ⟨hmem, hge⟩ := ih (if v.pLt u then u else v) hk1
    have hvacc1 : v.pLe (if v.pLt u then u else v) = true := by
      split
      · rename_i hlt
        exact pLe_iff.mpr (Or.inl (pLt_iff.mp hlt))
      · exact pLe_refl v
    have huacc1 : u.pLe (if v.pLt u then u else v) = true := by
      split
      · exact pLe_refl u
      · rename_i hnlt
        exact pLe_of_not_pLt hku.symm (Bool.not_eq_true _ ▸ eq_false_of_ne_true hnlt)
    have hhead := hge (if v.pLt u then u else v) (List.mem_cons_self _ _)
    constructor
    · rcases List.mem_cons.mp hmem with hfe | hfm
      · rw [hfe]
        split
        · exact List.mem_cons_of_mem v (List.mem_cons_self u vs)
        · exact List.mem_cons_self v (u :: vs)
      · exact List.mem_cons_of_mem v (List.mem_cons_of_mem u hfm)
    · intro w hw
      rcases List.mem_cons.mp hw with hwv | hw'
      · subst hwv
        exact pLe_trans hvacc1 hhead
      · rcases List.mem_cons.mp hw' with hwu | hwm
        · subst hwu
          exact pLe_trans huacc1 hhead
        · exact hge w (List.mem_cons_of_mem _ hwm)

/-- In a well-typed column, the spec extrema bound every non-null value. -/
theorem specExtrema_bounds (c : Column) (hwt : c.wellTyped) (mn mx : LValue)
    (h : specColumnExtrema c = some (mn, mx)) :
    ∀ w ∈ nonNullValues c, mn.pLe w = true ∧ w.pLe mx = true := by
  unfold specColumnExtrema at h
  cases hv : nonNullValues c with
  | nil => rw [hv] at h; exact absurd h (by simp)
  | cons v vs =>
    rw [hv] at h
    simp only [Option.some_inj, Prod.mk.injEq] at h
    obtain ⟨hmn, hmx⟩ := h
    have hkv : ∀ w ∈ vs, w.kind = v.kind := by
      intro w hw
      exact hwt w (hv ▸ List.mem_cons_of_mem v hw) v (hv ▸ List.mem_cons_self v vs)
    obtain ⟨_, hminle⟩ := foldl_min_mem_and_le vs v hkv
    obtain ⟨_, hmaxge⟩ := foldl_max_mem_and_ge vs v hkv
    intro w hw
    exact ⟨hmn ▸ hminle w hw, hmx ▸ hmaxge w hw⟩

theorem lookup_mem {l : List (String × Column)} {n : String} {c : Column}
    (h : l.lookup n = some c) : (n, c) ∈ l := by
  obtain ⟨l₁, l₂, rfl, -⟩ := List.lookup_eq_some_iff.mp h
  exact List.mem_append.mpr (Or.inr (List.mem_cons_self _ _))

theorem mem_nonNull_of_valueAt {c : Column} {r : Nat} {w : LValue}
    (h : c.valueAt r = some w) : w ∈ nonNullValues c := by
  unfold Column.valueAt at h
  rw [List.getD_eq_getElem?_getD] at h
  cases hg : c.data[r]? with
  | none => rw [hg] at h; exact absurd h (by simp)
  | some x =>
    rw [hg] at h
    simp only [Option.getD_some] at h
    subst h
    have hmem : some w ∈ c.data := List.getElem?_mem hg
    exact List.mem_filterMap.mpr ⟨some w, hmem, rfl⟩

/-- If the stored range proves the predicate vacuous under the source's
per-operator rules, then no in-range value matches the predicate. -/
theorem matchesOp_false_of_range (op : Operator) (v mn mx w : LValue)
    (hlo : mn.pLe w = true) (hhi : w.pLe mx = true)
    (hrule : (match op with
      | Operator.equal => mn.pLe v && mx.pGe v
      | Operator.notEqual => (mn != mx) || (mx != v)
      | Operator.gt => mx.pGt v
      | Operator.gte => mx.pGe v
      | Operator.lt => mn.pLt v
      | Operator.lte => mn.pLe v) = false) :
    matchesOp op v (some w) = false := by
  simp only [matchesOp]
  cases hc : w.pcmp v with
  | none => rfl
  | some ord =>
    cases op with
    | equal =>
      cases ord with
      | lt => rfl
      | gt => rfl
      | eq =>
        exfalso
        have hwv := pcmp_eq_eq.mp hc; subst hwv
        simp only [Bool.and_eq_false_iff] at hrule
        rcases hrule with hArm | hArm
        · rw [hlo] at hArm; exact absurd hArm (by simp)
        · rw [pGe_eq_pLe, hhi] at hArm; exact absurd hArm (by simp)
    | notEqual =>
      cases ord with
      | eq => rfl
      | lt =>
        exfalso
        simp only [Bool.or_eq_false_iff, bne_eq_false_iff_eq] at hrule
        obtain ⟨hmm, hmv⟩ := hrule
        have hwmx : w = mx := pLe_antisymm hhi (hmm ▸ hlo)
        rw [hwmx, hmv, pcmp_eq_eq.mpr rfl] at hc
        exact absurd hc (by simp)
      | gt =>
        exfalso
        simp only [Bool.or_eq_false_iff, bne_eq_false_iff_eq] at hrule
        obtain ⟨hmm, hmv⟩ := hrule
        have hwmx : w = mx := pLe_antisymm hhi (hmm ▸ hlo)
        rw [hwmx, hmv, pcmp_eq_eq.mpr rfl] at hc
        exact absurd hc (by simp)
    | gt =>
      cases ord with
      | lt => rfl
      | eq => rfl
      | gt =>
        exfalso
        have hvw : v.pcmp w = some .lt := by rw [pcmp_swap w v, hc]; rfl
        have hvm : v.pcmp mx = some .lt := pLt_pLe_trans hvw hhi
        have hmv : mx.pcmp v = some .gt := by rw [pcmp_swap v mx, hvm]; rfl
        rw [pGt_iff.mpr hmv] at hrule
        exact absurd hrule (by simp)
    | gte =>
      cases ord with
      | lt => rfl
      | eq =>
        exfalso
        have hwv := pcmp_eq_eq.mp hc; subst hwv
        rw [pGe_eq_pLe, hhi] at hrule
        exact absurd hrule (by simp)
      | gt =>
        exfalso
        have hvw : v.pcmp w = some .lt := by rw [pcmp_swap w v, hc]; rfl
        have hvm : v.pcmp mx = some .lt := pLt_pLe_trans hvw hhi
        rw [pGe_eq_pLe, pLe_iff.mpr (Or.inl hvm)] at hrule
        exact absurd hrule (by simp)
    | lt =>
      cases ord with
      | eq => rfl
      | gt => rfl
      | lt =>
        exfalso
        have hmv : mn.pcmp v = some .lt := pLe_pLt_trans hlo hc
        rw [pLt_iff.mpr hmv] at hrule
        exact absurd hrule (by simp)
    | lte =>
      cases ord with
      | gt => rfl
      | eq =>
        exfalso
        have hwv := pcmp_eq_eq.mp hc; subst hwv
        rw [hlo] at hrule
        exact absurd hrule (by simp)
      | lt =>
        exfalso
        have hmv : mn.pcmp v = some .lt := pLe_pLt_trans hlo hc
        rw [pLe_iff.mpr (Or.inl hmv)] at hrule
        exact absurd hrule (by simp)

/-- Every column of a successfully constructed row group has a value range. -/
theorem new_ranges_isSome (rows : Nat) (columns : List (String × ColumnType))
    (rg : RowGroup) (h : RowGroup.new rows columns = some rg) :
    ∀ p ∈ columns, (p.2.col.columnRange).isSome := by
  intro p hp
  have hsome : (RowGroup.new rows columns).isSome := by rw [h]; rfl
  rw [new_isSome, Bool.and_eq_true] at hsome
  have := (List.all_eq_true.mp hsome.1) p hp
  rw [Bool.and_eq_true] at this
  exact range_isSome_of_rangeOk p.2 this.2

/-- Claim C4: pruner safety and the per-operator rule.  Whenever
`column_could_satisfy_predicate(col, (op, v))` is false, no row of the
constructed row group satisfies the predicate on that column (for
well-typed columns, as produced by the typed construction surface); and
the decision equals the spec's per-operator range rule, unknown columns
included. -/
theorem C4_pruner_safe_and_matches_rule (rows : Nat)
    (columns : List (String × ColumnType)) (rg : RowGroup)
    (h : RowGroup.new rows columns = some rg)
    (hnd : (columns.map Prod.fst).Nodup)
    (hwt : ∀ q ∈ rg.columns, Column.wellTyped q.2)
    (name : String) (op : Operator) (v : LValue) :
    (rg.columnCouldSatisfyPredicate name (op, v) = false →
      ∀ r : Nat, predHolds rg (name, (op, v)) r = false) ∧
    rg.columnCouldSatisfyPredicate name (op, v) =
      specPrunerRule rg.columnRangesMeta name op v := by
  constructor
  · intro hfalse r
    dsimp only [predHolds]
    unfold RowGroup.columnByName
    cases hlc : rg.columns.lookup name with
    | none => rfl
    | some c =>
      cases hw : c.valueAt r with
      | none => rfl
      | some w =>
        have hmemc : (name, c) ∈ rg.columns := lookup_mem hlc
        obtain ⟨hrows, hcols, hmeta⟩ := new_fields rows columns rg h
        have hallSome := new_ranges_isSome rows columns rg h
        have hlook : rg.columnRangesMeta.lookup name = c.columnRange := by
          rw [hmeta]
          exact lookup_ranges_of_mem columns hnd hallSome name c (hcols ▸ hmemc)
        unfold RowGroup.columnCouldSatisfyPredicate couldSatisfyPredicate at hfalse
        rw [hlook, columnRange_eq_specExtrema] at hfalse
        have hwmem := mem_nonNull_of_valueAt hw
        cases hex : specColumnExtrema c with
        | none =>
          exfalso
          unfold specColumnExtrema at hex
          cases hv : nonNullValues c with
          | nil => rw [hv] at hwmem; exact absurd hwmem (by simp)
          | cons a as => rw [hv] at hex; exact absurd hex (by simp)
        | some p =>
          obtain ⟨mn, mx⟩ := p
          rw [hex] at hfalse
          have hbounds := specExtrema_bounds c (hwt (name, c) hmemc) mn mx hex w hwmem
          exact matchesOp_false_of_range op v mn mx w hbounds.1 hbounds.2 hfalse
  · unfold RowGroup.columnCouldSatisfyPredicate couldSatisfyPredicate specPrunerRule
    cases hl : rg.columnRangesMeta.lookup name with
    | none => rfl
    | some p =>
      obtain ⟨mn, mx⟩ := p
      cases op with
      | equal =>
        show (mn.pLe v && mx.pGe v) = (mn.pLe v && v.pLe mx)
        rw [pGe_eq_pLe]
      | notEqual => rfl
      | gt => rfl
      | gte => rfl
      | lt => rfl
      | lte => rfl

/-- Witness for C4 at the 6-row fixture, column region, predicate = "abc". -/
theorem C4_pruner_safe_and_matches_rule_witness :
    RowGroup.new 6 fixtureColumns = some fixture ∧
    (fixtureColumns.map Prod.fst).Nodup ∧
    (∀ q ∈ fixture.columns, Column.wellTyped q.2) ∧
    ((fixture.columnCouldSatisfyPredicate "region" (.equal, .str "abc") = false →
        ∀ r : Nat, predHolds fixture ("region", (.equal, .str "abc")) r = false) ∧
      fixture.columnCouldSatisfyPredicate "region" (.equal, .str "abc") =
        specPrunerRule fixture.columnRangesMeta "region" .equal (.str "abc")) :=
  ⟨by decide, by decide, by decide,
   C4_pruner_safe_and_matches_rule 6 fixtureColumns fixture (by decide) (by decide)
     (by decide) "region" .equal (.str "abc")⟩

/-- Oring a value into a shifted lane above all set bits is addition. -/
theorem lor_shiftLeft_eq_add {a b k : Nat} (h : a < 2 ^ k) :
    a ||| (b <<< k) = b * 2 ^ k + a := by
  rw [Nat.shiftLeft_eq, Nat.lor_comm, Nat.mul_comm b (2 ^ k)]
  exact (Nat.mul_add_lt_is_or h b).symm

/-- Unpacking recovers lane-by-lane packed ids (shared helper). -/
theorem packLanes_unpack (ids : List Nat) (hlen1 : 1 ≤ ids.length)
    (hlen4 : ids.length ≤ 4) (hbound : ∀ x ∈ ids, x < 2 ^ 32) :
    unpack_u128_group_key (packLanes ids) ids.length [] = ids := by
  have h32 : (2 : Nat) ^ 32 = 4294967296 := by norm_num
  have h64 : (2 : Nat) ^ 64 = 18446744073709551616 := by norm_num
  have h96 : (2 : Nat) ^ 96 = 79228162514264337593543950336 := by norm_num
  rcases ids with _ | ⟨a, _ | ⟨b, _ | ⟨c, _ | ⟨d, _ | ⟨e, rest⟩⟩⟩⟩⟩
  · simp at hlen1
  · have ha : a < 4294967296 := h32 ▸ hbound a (by simp)
    have hpack : packLanes [a] = a := by
      norm_num [packLanes, packLanesAux, pack_u32_in_u128]
    unfold unpack_u128_group_key
    rw [hpack]
    norm_num [List.range_succ, Nat.shiftRight_eq_div_pow]
    omega
  · have ha : a < 4294967296 := h32 ▸ hbound a (by simp)
    have hb : b < 4294967296 := h32 ▸ hbound b (by simp)
    have hb1 : a < 2 ^ 32 := by rw [h32]; omega
    have hpack : packLanes [a, b] = b * 2 ^ 32 + a := by
      norm_num [packLanes, packLanesAux, pack_u32_in_u128]
      rw [lor_shiftLeft_eq_add hb1, h32]
    unfold unpack_u128_group_key
    rw [hpack]
    norm_num [List.range_succ, Nat.shiftRight_eq_div_pow, h32]
    omega
  · have ha : a < 4294967296 := h32 ▸ hbound a (by simp)
    have hb : b < 4294967296 := h32 ▸ hbound b (by simp)
    have hc : c < 4294967296 := h32 ▸ hbound c (by simp)
    have hb1 : a < 2 ^ 32 := by rw [h32]; omega
    have hb2 : b * 2 ^ 32 + a < 2 ^ 64 := by rw [h32, h64]; omega
    have hpack : packLanes [a, b, c] = c * 2 ^ 64 + (b * 2 ^ 32 + a) := by
      norm_num [packLanes, packLanesAux, pack_u32_in_u128]
      rw [lor_shiftLeft_eq_add hb1, lor_shiftLeft_eq_add hb2, h32, h64]
    unfold unpack_u128_group_key
    rw [hpack]
    norm_num [List.range_succ, Nat.shiftRight_eq_div_pow, h32, h64]
    omega
  · have ha : a < 4294967296 := h32 ▸ hbound a (by simp)
    have hb : b < 4294967296 := h32 ▸ hbound b (by simp)
    have hc : c < 4294967296 := h32 ▸ hbound c (by simp)
    have hd : d < 4294967296 := h32 ▸ hbound d (by simp)
    have hb1 : a < 2 ^ 32 := by rw [h32]; omega
    have hb2 : b * 2 ^ 32 + a < 2 ^ 64 := by rw [h32, h64]; omega
    have hb3 : c * 2 ^ 64 + (b * 2 ^ 32 + a) < 2 ^ 96 := by rw [h32, h64, h96]; omega
    have hpack : packLanes [a, b, c, d] =
        d * 2 ^ 96 + (c * 2 ^ 64 + (b * 2 ^ 32 + a)) := by
      norm_num [packLanes, packLanesAux, pack_u32_in_u128]
      rw [lor_shiftLeft_eq_add hb1, lor_shiftLeft_eq_add hb2, lor_shiftLeft_eq_add hb3,
        h32, h64, h96]
    unfold unpack_u128_group_key
    rw [hpack]
    norm_num [List.range_succ, Nat.shiftRight_eq_div_pow, h32, h64, h96]
    omega
  · simp at hlen4

/-- Claim C8: packing one to four 32-bit encoded ids lane by lane with
`pack_u32_in_u128` (id i at bit offset 32·i) and unpacking the same number
of lanes with `unpack_u128_group_key` returns the original vector. -/
theorem C8_pack_unpack_round_trip (ids : List Nat) (hlen1 : 1 ≤ ids.length)
    (hlen4 : ids.length ≤ 4) (hbound : ∀ x ∈ ids, x < 2 ^ 32) :
    unpack_u128_group_key (packLanes ids) ids.length [] = ids :=
  packLanes_unpack ids hlen1 hlen4 hbound

/-- Witness for C8 at the vector (1, 2, 3, 4). -/
theorem C8_pack_unpack_round_trip_witness :
    1 ≤ ([1, 2, 3, 4] : List Nat).length ∧
    ([1, 2, 3, 4] : List Nat).length ≤ 4 ∧
    (∀ x ∈ ([1, 2, 3, 4] : List Nat), x < 2 ^ 32) ∧
    unpack_u128_group_key (packLanes [1, 2, 3, 4]) ([1, 2, 3, 4] : List Nat).length []
      = [1, 2, 3, 4] :=
  ⟨by decide, by decide, by decide,
   C8_pack_unpack_round_trip [1, 2, 3, 4] (by decide) (by decide) (by decide)⟩

/-! ### Toolkit for the group-by kernel equivalence -/

theorem valueAt_mem_dict {c : Column} {r : Nat} (h : r < c.numRows) :
    c.valueAt r ∈ c.dict := by
  unfold Column.valueAt Column.dict
  rw [List.mem_dedup, List.getD_eq_getElem?_getD]
  cases hg : c.data[r]? with
  | none =>
    exfalso
    rw [List.getElem?_eq_none_iff] at hg
    exact absurd h (by unfold Column.numRows; omega)
  | some x =>
    simp only [Option.getD_some]
    exact List.getElem?_mem hg

theorem decode_encode {c : Column} {v : Option LValue} (h : v ∈ c.dict) :
    c.decodeId (c.encodeVal v) = v := by
  unfold Column.decodeId Column.encodeVal
  have hlt : @List.indexOf (Option LValue) instBEqOfDecidableEq v c.dict < c.dict.length :=
    List.indexOf_lt_length.mpr h
  rw [List.getD_eq_getElem?_getD, List.getElem?_eq_getElem hlt]
  simp [List.getElem_indexOf]

theorem encode_inj {c : Column} {v w : Option LValue} (hv : v ∈ c.dict)
    (hw : w ∈ c.dict) (h : c.encodeVal v = c.encodeVal w) : v = w := by
  unfold Column.encodeVal at h
  exact (List.indexOf_inj hv hw).mp h

theorem encodedAt_lt_dict {c : Column} {r : Nat} (h : r < c.numRows) :
    c.encodedAt r < c.dict.length := by
  unfold Column.encodedAt Column.encodeVal
  exact List.indexOf_lt_length.mpr (valueAt_mem_dict h)

theorem dict_length_le {c : Column} : c.dict.length ≤ c.numRows :=
  (List.dedup_sublist c.data).length_le

theorem allEncodedValues_getD {c : Column} {r : Nat} (h : r < c.numRows) :
    (c.allEncodedValues).getD r 0 = c.encodedAt r := by
  unfold Column.allEncodedValues
  rw [List.getD_eq_getElem?_getD, List.getElem?_map, List.getElem?_range h]
  rfl

theorem allEncodedValues_length (c : Column) :
    (c.allEncodedValues).length = c.numRows := by
  simp [Column.allEncodedValues]

theorem groupedRowIds_getD {c : Column} {i : Nat} (h : i < c.dict.length) :
    (c.groupedRowIds).getD i [] = c.rowsWithValue (c.decodeId i) := by
  unfold Column.groupedRowIds Column.decodeId
  rw [List.getD_eq_getElem?_getD, List.getElem?_map, List.getElem?_eq_getElem h,
    List.getD_eq_getElem?_getD, List.getElem?_eq_getElem h]
  rfl

theorem rowIdsIntersect_filter (R : Nat) (p q : Nat → Bool) :
    rowIdsIntersect ((List.range R).filter p) ((List.range R).filter q)
      = (List.range R).filter (fun r => p r && q r) := by
  unfold rowIdsIntersect
  rw [List.filter_filter]
  apply List.filter_congr
  intro r hr
  have hcont : (((List.range R).filter q).contains r) = q r := by
    cases hq : q r with
    | true =>
      have hm : r ∈ (List.range R).filter q := List.mem_filter.mpr ⟨hr, hq⟩
      simpa using List.elem_iff.mpr hm
    | false =>
      have hm : r ∉ (List.range R).filter q := by
        intro hmem
        rw [List.mem_filter, hq] at hmem
        exact absurd hmem.2 (by simp)
      simpa using fun hcontra => hm (List.elem_iff.mp hcontra)
  rw [hcont, Bool.and_comm (q r) (p r)]

theorem filter_eq_nil_mono {R : Nat} {p q : Nat → Bool}
    (himp : ∀ r, q r = true → p r = true)
    (h : (List.range R).filter p = []) : (List.range R).filter q = [] := by
  rw [List.filter_eq_nil_iff] at h ⊢
  intro a ha hq
  exact h a ha (himp a hq)

theorem mem_prodLists {α : Type} {ls : List (List α)} {t : List α} :
    t ∈ prodLists ls ↔ List.Forall₂ (fun x l => x ∈ l) t ls := by
  induction ls generalizing t with
  | nil =>
    simp only [prodLists, List.mem_singleton]
    constructor
    · intro h; subst h; exact List.Forall₂.nil
    · intro h; cases h; rfl
  | cons l ls ih =>
    simp only [prodLists, List.mem_flatMap, List.mem_map]
    constructor
    · rintro ⟨x, hx, t', ht', rfl⟩
      exact List.Forall₂.cons hx (ih.mp ht')
    · intro h
      cases h with
      | cons hx ht' => exact ⟨_, hx, _, ih.mpr ht', rfl⟩

theorem nodup_prodLists {α : Type} {ls : List (List α)}
    (h : ∀ l ∈ ls, l.Nodup) : (prodLists ls).Nodup := by
  induction ls with
  | nil => simp [prodLists]
  | cons l ls ih =>
    simp only [prodLists]
    rw [List.nodup_flatMap]
    constructor
    · intro x hx
      exact (ih (fun l' hl' => h l' (List.mem_cons_of_mem l hl'))).map
        List.cons_injective
    · have hl : l.Nodup := h l (List.mem_cons_self l ls)
      apply hl.imp
      intro x y hxy
      intro t htx hty
      simp only [Function.onFun, List.mem_map] at htx hty
      obtain ⟨tx, _, htx2⟩ := htx
      obtain ⟨ty, _, hty2⟩ := hty
      rw [← htx2] at hty2
      injection hty2 with h1 h2
      exact hxy h1.symm

theorem assocUpdate_lookup_self {κ : Type} [DecidableEq κ]
    (m : List (κ × List AggregateResult)) (key : κ)
    (inits : List AggregateResult) (vals : List (Option LValue)) :
    (assocUpdate m key inits vals).lookup key =
      some (updateAggs ((m.lookup key).getD inits) vals) := by
  induction m with
  | nil => simp [assocUpdate, List.lookup]
  | cons p m ih =>
    obtain ⟨k0, a⟩ := p
    by_cases hk : k0 = key
    · subst hk
      unfold assocUpdate
      simp [List.lookup]
    · unfold assocUpdate
      rw [if_neg hk]
      have hbeq : (key == k0) = false := beq_eq_false_iff_ne.mpr (Ne.symm hk)
      simp only [List.lookup, hbeq]
      exact ih

theorem assocUpdate_lookup_ne {κ : Type} [DecidableEq κ]
    (m : List (κ × List AggregateResult)) (key : κ)
    (inits : List AggregateResult) (vals : List (Option LValue))
    (k : κ) (h : k ≠ key) :
    (assocUpdate m key inits vals).lookup k = m.lookup k := by
  induction m with
  | nil =>
    simp [assocUpdate, List.lookup, beq_eq_false_iff_ne.mpr h]
  | cons p m ih =>
    obtain ⟨k0, a⟩ := p
    by_cases hk : k0 = key
    · subst hk
      unfold assocUpdate
      rw [if_pos rfl]
      have hbeq : (k == k0) = false := beq_eq_false_iff_ne.mpr h
      simp only [List.lookup, hbeq]
    · unfold assocUpdate
      rw [if_neg hk]
      simp only [List.lookup]
      cases hb : k == k0 with
      | true => rfl
      | false => exact ih

theorem assocUpdate_keys {κ : Type} [DecidableEq κ]
    (m : List (κ × List AggregateResult)) (key : κ)
    (inits : List AggregateResult) (vals : List (Option LValue)) :
    (assocUpdate m key inits vals).map Prod.fst =
      if key ∈ m.map Prod.fst then m.map Prod.fst else m.map Prod.fst ++ [key] := by
  induction m with
  | nil => simp [assocUpdate]
  | cons p m ih =>
    obtain ⟨k0, a⟩ := p
    by_cases hk : k0 = key
    · subst hk
      unfold assocUpdate
      simp
    · unfold assocUpdate
      rw [if_neg hk]
      simp only [List.map_cons]
      rw [ih]
      by_cases hmem : key ∈ m.map Prod.fst
      · simp [hmem]
      · simp [hmem, Ne.symm hk]

theorem mem_iff_lookup {κ β : Type} [DecidableEq κ] {l : List (κ × β)}
    (h : (l.map Prod.fst).Nodup) (k : κ) (b : β) :
    (k, b) ∈ l ↔ l.lookup k = some b := by
  induction l with
  | nil => simp [List.lookup]
  | cons p l ih =>
    obtain ⟨k0, b0⟩ := p
    rw [List.map_cons, List.nodup_cons] at h
    by_cases hk : k = k0
    · subst hk
      simp only [List.lookup, beq_self_eq_true]
      constructor
      · intro hmem
        rcases List.mem_cons.mp hmem with he | ht
        · injection he with h1 h2
          rw [h2]
        · exfalso
          exact h.1 (List.mem_map.mpr ⟨(k, b), ht, rfl⟩)
      · intro he
        injection he with h1
        rw [← h1]
        exact List.mem_cons_self _ _
    · have hbeq : (k == k0) = false := beq_eq_false_iff_ne.mpr hk
      simp only [List.lookup, hbeq]
      rw [← ih h.2]
      constructor
      · intro hmem
        rcases List.mem_cons.mp hmem with he | ht
        · exact absurd (congrArg Prod.fst he) hk
        · exact ht
      · exact List.mem_cons_of_mem _

theorem upsertFold_lookup_some {κ : Type} [DecidableEq κ] (key : Nat → κ)
    (vals : Nat → List (Option LValue)) (inits : List AggregateResult)
    (rows : List Nat) :
    ∀ (m : List (κ × List AggregateResult)) (k : κ) (a : List AggregateResult),
      m.lookup k = some a →
      (rows.foldl (fun m' r => assocUpdate m' (key r) inits (vals r)) m).lookup k =
        some ((rows.filter (fun r => decide (key r = k))).foldl
          (fun aggs r => updateAggs aggs (vals r)) a) := by
  induction rows with
  | nil => intro m k a h; simpa using h
  | cons r rows ih =>
    intro m k a h
    simp only [List.foldl_cons, List.filter_cons]
    by_cases hkr : key r = k
    · subst hkr
      rw [if_pos (by simp)]
      have hm' := assocUpdate_lookup_self m (key r) inits (vals r)
      rw [h] at hm'
      simp only [Option.getD_some] at hm'
      rw [ih _ _ _ hm']
      simp
    · rw [if_neg (by simpa using hkr)]
      have hm' := assocUpdate_lookup_ne m (key r) inits (vals r) k
        (fun he => hkr he.symm)
      rw [← hm'] at h
      exact ih _ _ _ h

theorem upsertFold_lookup_none {κ : Type} [DecidableEq κ] (key : Nat → κ)
    (vals : Nat → List (Option LValue)) (inits : List AggregateResult)
    (rows : List Nat) :
    ∀ (m : List (κ × List AggregateResult)) (k : κ),
      m.lookup k = none →
      (rows.foldl (fun m' r => assocUpdate m' (key r) inits (vals r)) m).lookup k =
        (match rows.filter (fun r => decide (key r = k)) with
         | [] => none
         | rs => some (rs.foldl (fun aggs r => updateAggs aggs (vals r)) inits)) := by
  induction rows with
  | nil => intro m k h; simpa using h
  | cons r rows ih =>
    intro m k h
    simp only [List.foldl_cons, List.filter_cons]
    by_cases hkr : key r = k
    · subst hkr
      rw [if_pos (by simp)]
      have hm' := assocUpdate_lookup_self m (key r) inits (vals r)
      rw [h] at hm'
      simp only [Option.getD_none] at hm'
      rw [upsertFold_lookup_some key vals inits rows _ _ _ hm']
      simp
    · rw [if_neg (by simpa using hkr)]
      have hm' := assocUpdate_lookup_ne m (key r) inits (vals r) k
        (fun he => hkr he.symm)
      rw [← hm'] at h
      exact ih _ _ h

theorem upsertFold_keys_nodup {κ : Type} [DecidableEq κ] (key : Nat → κ)
    (vals : Nat → List (Option LValue)) (inits : List AggregateResult)
    (rows : List Nat) :
    ∀ (m : List (κ × List AggregateResult)), ((m.map Prod.fst).Nodup) →
      (((rows.foldl (fun m' r => assocUpdate m' (key r) inits (vals r)) m).map
        Prod.fst).Nodup) := by
  induction rows with
  | nil => intro m h; simpa using h
  | cons r rows ih =>
    intro m h
    simp only [List.foldl_cons]
    apply ih
    rw [assocUpdate_keys]
    by_cases hmem : key r ∈ m.map Prod.fst
    · rw [if_pos hmem]; exact h
    · rw [if_neg hmem]
      simp [List.nodup_append, h, hmem]

theorem upsertFold_keys_mem {κ : Type} [DecidableEq κ] (key : Nat → κ)
    (vals : Nat → List (Option LValue)) (inits : List AggregateResult)
    (rows : List Nat) :
    ∀ (m : List (κ × List AggregateResult)) (k : κ),
      (k ∈ (rows.foldl (fun m' r => assocUpdate m' (key r) inits (vals r)) m).map
          Prod.fst
        ↔ k ∈ m.map Prod.fst ∨ ∃ r ∈ rows, key r = k) := by
  induction rows with
  | nil => intro m k; simp
  | cons r rows ih =>
    intro m k
    simp only [List.foldl_cons]
    rw [ih]
    rw [assocUpdate_keys]
    by_cases hmem : key r ∈ m.map Prod.fst
    · rw [if_pos hmem]
      constructor
      · rintro (hm | hr)
        · exact Or.inl hm
        · exact Or.inr (by obtain ⟨r', hr', he⟩ := hr; exact ⟨r', by simp [hr'], he⟩)
      · rintro (hm | ⟨r', hr', he⟩)
        · exact Or.inl hm
        · rcases List.mem_cons.mp hr' with he' | ht
          · subst he'; subst he; exact Or.inl hmem
          · exact Or.inr ⟨r', ht, he⟩
    · rw [if_neg hmem]
      simp only [List.mem_append, List.mem_singleton]
      constructor
      · rintro ((hm | hk) | hr)
        · exact Or.inl hm
        · exact Or.inr ⟨r, List.mem_cons_self _ _, hk.symm⟩
        · obtain ⟨r', hr', he⟩ := hr
          exact Or.inr ⟨r', List.mem_cons_of_mem _ hr', he⟩
      · rintro (hm | ⟨r', hr', he⟩)
        · exact Or.inl (Or.inl hm)
        · rcases List.mem_cons.mp hr' with he' | ht
          · subst he'; exact Or.inl (Or.inr he.symm)
          · exact Or.inr ⟨r', ht, he⟩

theorem foldl_updateAggs_nil (rs : List Nat) (f : Nat → List (Option LValue)) :
    rs.foldl (fun aggs r => updateAggs aggs (f r)) [] = [] := by
  induction rs with
  | nil => rfl
  | cons r rs ih => simpa [updateAggs] using ih

theorem foldl_updateAggs_cons (rs : List Nat) :
    ∀ (vhead : Nat → Option LValue) (vtail : Nat → List (Option LValue))
      (a : AggregateResult) (as : List AggregateResult),
      rs.foldl (fun aggs r => updateAggs aggs (vhead r :: vtail r)) (a :: as) =
        (rs.foldl (fun x r => AggregateResult.update x (vhead r)) a) ::
          (rs.foldl (fun xs r => updateAggs xs (vtail r)) as) := by
  induction rs with
  | nil => intro vhead vtail a as; rfl
  | cons r rs ih =>
    intro vhead vtail a as
    simp only [List.foldl_cons]
    rw [show updateAggs (a :: as) (vhead r :: vtail r) =
      (AggregateResult.update a (vhead r)) :: updateAggs as (vtail r) from rfl]
    exact ih vhead vtail _ _

theorem foldl_update_count (rs : List Nat) (g : Nat → Option LValue) :
    ∀ n, rs.foldl (fun x r => AggregateResult.update x (g r)) (.count n) =
      .count (rs.foldl (fun m r => updateCount m (g r)) n) := by
  induction rs with
  | nil => intro n; rfl
  | cons r rs ih => intro n; simpa using ih (updateCount n (g r))

theorem foldl_update_sum (rs : List Nat) (g : Nat → Option LValue) :
    ∀ s, rs.foldl (fun x r => AggregateResult.update x (g r)) (.sum s) =
      .sum (rs.foldl (fun m r => updateSum m (g r)) s) := by
  induction rs with
  | nil => intro s; rfl
  | cons r rs ih => intro s; simpa using ih (updateSum s (g r))

theorem foldl_update_min (rs : List Nat) (g : Nat → Option LValue) :
    ∀ s, rs.foldl (fun x r => AggregateResult.update x (g r)) (.min s) =
      .min (rs.foldl (fun m r => updateMin m (g r)) s) := by
  induction rs with
  | nil => intro s; rfl
  | cons r rs ih => intro s; simpa using ih (updateMin s (g r))

theorem foldl_update_max (rs : List Nat) (g : Nat → Option LValue) :
    ∀ s, rs.foldl (fun x r => AggregateResult.update x (g r)) (.max s) =
      .max (rs.foldl (fun m r => updateMax m (g r)) s) := by
  induction rs with
  | nil => intro s; rfl
  | cons r rs ih => intro s; simpa using ih (updateMax s (g r))

theorem foldl_update_first (rs : List Nat) (g : Nat → Option LValue) :
    rs.foldl (fun x r => AggregateResult.update x (g r)) .first = .first := by
  induction rs with
  | nil => rfl
  | cons r rs ih => simpa using ih

theorem foldl_update_last (rs : List Nat) (g : Nat → Option LValue) :
    rs.foldl (fun x r => AggregateResult.update x (g r)) .last = .last := by
  induction rs with
  | nil => rfl
  | cons r rs ih => simpa using ih

theorem countAgg_eq_foldRows (c : Column) (rs : List Nat) :
    c.countAgg rs = rs.foldl (fun m r => updateCount m (c.valueAt r)) 0 := by
  unfold Column.countAgg Column.valuesAt
  rw [List.foldl_map]

theorem sumAgg_eq_foldRows (c : Column) (rs : List Nat) :
    c.sumAgg rs = rs.foldl (fun m r => updateSum m (c.valueAt r)) none := by
  unfold Column.sumAgg Column.valuesAt
  rw [List.foldl_map]

theorem minAgg_eq_foldRows (c : Column) (rs : List Nat) :
    c.minAgg rs = rs.foldl (fun m r => updateMin m (c.valueAt r)) none := by
  unfold Column.minAgg Column.valuesAt
  rw [List.foldl_map]

theorem maxAgg_eq_foldRows (c : Column) (rs : List Nat) :
    c.maxAgg rs = rs.foldl (fun m r => updateMax m (c.valueAt r)) none := by
  unfold Column.maxAgg Column.valuesAt
  rw [List.foldl_map]

/-- The per-row aggregator updates of the hash kernels compute exactly the
independent column aggregate kernels, for every aggregate kind. -/
theorem aggFold_eq_refAggList (acols : List (Column × AggregateType)) (rs : List Nat) :
    rs.foldl (fun aggs r => updateAggs aggs (acols.map (fun ct => ct.1.valueAt r)))
      (acols.map (fun ct => AggregateResult.fromType ct.2)) = refAggList acols rs := by
  induction acols with
  | nil => simpa [refAggList] using foldl_updateAggs_nil rs _
  | cons ct acols ih =>
    obtain ⟨c, ty⟩ := ct
    simp only [List.map_cons]
    rw [foldl_updateAggs_cons]
    unfold refAggList
    rw [List.map_cons]
    congr 1
    · cases ty with
      | count =>
        rw [show AggregateResult.fromType AggregateType.count =
          AggregateResult.count 0 from rfl]
        rw [foldl_update_count, countAgg_eq_foldRows]
      | sum =>
        rw [show AggregateResult.fromType AggregateType.sum =
          AggregateResult.sum none from rfl]
        rw [foldl_update_sum, sumAgg_eq_foldRows]
      | min =>
        rw [show AggregateResult.fromType AggregateType.min =
          AggregateResult.min none from rfl]
        rw [foldl_update_min, minAgg_eq_foldRows]
      | max =>
        rw [show AggregateResult.fromType AggregateType.max =
          AggregateResult.max none from rfl]
        rw [foldl_update_max, maxAgg_eq_foldRows]
      | first =>
        rw [show AggregateResult.fromType AggregateType.first =
          AggregateResult.first from rfl]
        rw [foldl_update_first]
      | last =>
        rw [show AggregateResult.fromType AggregateType.last =
          AggregateResult.last from rfl]
        rw [foldl_update_last]

theorem mapM_eq_some_map {α β : Type} (f : α → Option β) (g : α → β)
    (l : List α) (h : ∀ a ∈ l, f a = some (g a)) : l.mapM f = some (l.map g) := by
  induction l with
  | nil => rfl
  | cons a l ih =>
    rw [List.mapM_cons, h a (List.mem_cons_self a l),
      ih (fun x hx => h x (List.mem_cons_of_mem a hx))]
    rfl

/-- The all-RLE aggregate emission succeeds for the four supported kinds
and equals the reference aggregates. -/
theorem rleAgg_mapM (acols : List (Column × AggregateType)) (rows : List Nat)
    (h : ∀ ct ∈ acols, ct.2 = AggregateType.count ∨ ct.2 = AggregateType.sum ∨
      ct.2 = AggregateType.min ∨ ct.2 = AggregateType.max) :
    acols.mapM (fun ct => rleAggregate ct.1 ct.2 rows) = some (refAggList acols rows) := by
  apply mapM_eq_some_map
  intro ct hct
  rcases h ct hct with h' | h' | h' | h' <;> rw [h'] <;> rfl

theorem packKeyLoop_map (ls : List (List Nat)) :
    ∀ (row i acc : Nat), packKeyLoop ls row i acc =
      packLanesAux (ls.map (fun colIds => colIds.getD row 0)) i acc := by
  induction ls with
  | nil => intro row i acc; rfl
  | cons colIds ls ih =>
    intro row i acc
    simp only [List.map_cons, packKeyLoop, packLanesAux]
    exact ih row (i + 1) _

theorem packRowKey_eq_packLanes (gids : List (List Nat)) (row : Nat) :
    packRowKey gids row = packLanes (gids.map (fun colIds => colIds.getD row 0)) :=
  packKeyLoop_map gids row 0 0

theorem encodedLanes_eq (gcols : List Column) (R r : Nat)
    (hR : ∀ c ∈ gcols, c.numRows = R) (hr : r < R) :
    (gcols.map Column.allEncodedValues).map (fun ids => ids.getD r 0) =
      gcols.map (fun c => c.encodedAt r) := by
  rw [List.map_map]
  apply List.map_congr_left
  intro c hc
  exact allEncodedValues_getD (by rw [hR c hc]; exact hr)

theorem packLanes_inj {ids idt : List Nat} (hlen : ids.length = idt.length)
    (h1 : 1 ≤ ids.length) (h4 : ids.length ≤ 4)
    (hb : ∀ x ∈ ids, x < 2 ^ 32) (hb' : ∀ x ∈ idt, x < 2 ^ 32)
    (h : packLanes ids = packLanes idt) : ids = idt := by
  have e1 := packLanes_unpack ids h1 h4 hb
  have e2 := packLanes_unpack idt (by omega) (by omega) hb'
  rw [← e1, ← e2, h, hlen]

theorem encodedAt_eq_iff (c : Column) {R r s : Nat} (hc : c.numRows = R)
    (hr : r < R) (hs : s < R) :
    c.encodedAt r = c.encodedAt s ↔ c.valueAt r = c.valueAt s := by
  constructor
  · intro h
    exact encode_inj (valueAt_mem_dict (by rw [hc]; exact hr))
      (valueAt_mem_dict (by rw [hc]; exact hs)) h
  · intro h
    unfold Column.encodedAt
    rw [h]

theorem valueTuple_eq_iff_encodedTuple (gcols : List Column) {R r s : Nat}
    (hR : ∀ c ∈ gcols, c.numRows = R) (hr : r < R) (hs : s < R) :
    gcols.map (fun c => c.encodedAt r) = gcols.map (fun c => c.encodedAt s)
      ↔ gcols.map (fun c => c.valueAt r) = gcols.map (fun c => c.valueAt s) := by
  rw [List.map_inj_left, List.map_inj_left]
  constructor
  · intro h c hc
    exact (encodedAt_eq_iff c (hR c hc) hr hs).mp (h c hc)
  · intro h c hc
    exact (encodedAt_eq_iff c (hR c hc) hr hs).mpr (h c hc)

theorem encodedAt_lt_two_pow (c : Column) {R r : Nat} (hc : c.numRows = R)
    (hR32 : R ≤ 2 ^ 32) (hr : r < R) : c.encodedAt r < 2 ^ 32 :=
  lt_of_lt_of_le (encodedAt_lt_dict (by rw [hc]; exact hr))
    (le_trans dict_length_le (by rw [hc]; exact hR32))

theorem packRowKey_eq_iff (gcols : List Column) {R r s : Nat}
    (hne : gcols ≠ []) (h4 : gcols.length ≤ 4)
    (hR : ∀ c ∈ gcols, c.numRows = R) (hR32 : R ≤ 2 ^ 32)
    (hr : r < R) (hs : s < R) :
    packRowKey (gcols.map Column.allEncodedValues) r =
        packRowKey (gcols.map Column.allEncodedValues) s ↔
      gcols.map (fun c => c.valueAt r) = gcols.map (fun c => c.valueAt s) := by
  rw [packRowKey_eq_packLanes, packRowKey_eq_packLanes,
    encodedLanes_eq gcols R r hR hr, encodedLanes_eq gcols R s hR hs]
  have hb : ∀ x ∈ gcols.map (fun c => c.encodedAt r), x < 2 ^ 32 := by
    intro x hx
    obtain ⟨c, hc, rfl⟩ := List.mem_map.mp hx
    exact encodedAt_lt_two_pow c (hR c hc) hR32 hr
  have hb' : ∀ x ∈ gcols.map (fun c => c.encodedAt s), x < 2 ^ 32 := by
    intro x hx
    obtain ⟨c, hc, rfl⟩ := List.mem_map.mp hx
    exact encodedAt_lt_two_pow c (hR c hc) hR32 hs
  constructor
  · intro h
    apply (valueTuple_eq_iff_encodedTuple gcols hR hr hs).mp
    apply packLanes_inj (by simp) ?_ (by simpa using h4) hb hb' h
    have : gcols.length ≠ 0 := fun h0 => hne (List.length_eq_zero.mp h0)
    simpa using Nat.one_le_iff_ne_zero.mpr this
  · intro h
    rw [(valueTuple_eq_iff_encodedTuple gcols hR hr hs).mpr h]

theorem decodeId_encodedAt (c : Column) {R r : Nat} (hc : c.numRows = R)
    (hr : r < R) : c.decodeId (c.encodedAt r) = c.valueAt r :=
  decode_encode (valueAt_mem_dict (by rw [hc]; exact hr))

theorem decode_packRowKey (gcols : List Column) {R r : Nat}
    (hne : gcols ≠ []) (h4 : gcols.length ≤ 4)
    (hR : ∀ c ∈ gcols, c.numRows = R) (hR32 : R ≤ 2 ^ 32) (hr : r < R) :
    gcols.enum.map (fun ci =>
        ci.2.decodeId ((packRowKey (gcols.map Column.allEncodedValues) r >>> (ci.1 * 32))
          % 2 ^ 32)) =
      gcols.map (fun c => c.valueAt r) := by
  have hb : ∀ x ∈ gcols.map (fun c => c.encodedAt r), x < 2 ^ 32 := by
    intro x hx
    obtain ⟨c, hc, rfl⟩ := List.mem_map.mp hx
    exact encodedAt_lt_two_pow c (hR c hc) hR32 hr
  have h1 : 1 ≤ (gcols.map (fun c => c.encodedAt r)).length := by
    have : gcols.length ≠ 0 := fun h0 => hne (List.length_eq_zero.mp h0)
    simpa using Nat.one_le_iff_ne_zero.mpr this
  have hlanes := packLanes_unpack (gcols.map (fun c => c.encodedAt r)) h1
    (by simpa using h4) hb
  rw [packRowKey_eq_packLanes, encodedLanes_eq gcols R r hR hr]
  unfold unpack_u128_group_key at hlanes
  simp only [List.take_nil, List.nil_append, List.length_map] at hlanes
  have hlane : ∀ i (hi : i < gcols.length),
      (packLanes (gcols.map (fun c => c.encodedAt r)) >>> (i * 32)) % 2 ^ 32 =
        (gcols[i]).encodedAt r := by
    intro i hi
    have hgi := congrArg (fun l : List Nat => l[i]?) hlanes
    simp only at hgi
    rw [List.getElem?_map, List.getElem?_map, List.getElem?_range hi,
      List.getElem?_eq_getElem hi] at hgi
    simp only [Option.map_some'] at hgi
    exact Option.some.inj hgi
  apply List.ext_getElem
  · simp
  · intro i hi1 hi2
    have hig : i < gcols.length := by simpa using hi2
    rw [List.getElem_map, List.getElem_map,
      List.getElem_enum gcols i (by simpa using hi1)]
    simp only
    rw [hlane i hig]
    simpa [List.get_eq_getElem] using
      decodeId_encodedAt (gcols[i]) (hR _ (List.getElem_mem hig)) hr

theorem aggRowValues_allValues (rg : RowGroup) (A : List (String × AggregateType))
    (r : Nat) :
    aggRowValues (A.map (fun p => (rg.columnByName p.1).allValues)) r =
      (A.map (fun p => (rg.columnByName p.1, p.2))).map (fun ct => ct.1.valueAt r) := by
  unfold aggRowValues Column.allValues Column.valueAt
  rw [List.map_map, List.map_map]
  rfl

theorem inits_map_eq (rg : RowGroup) (A : List (String × AggregateType)) :
    A.map (fun p => AggregateResult.fromType p.2) =
      (A.map (fun p => (rg.columnByName p.1, p.2))).map
        (fun ct => AggregateResult.fromType ct.2) := by
  rw [List.map_map]
  rfl

/-- Characterization of the packed-u128 hash kernel on the unfiltered
inputs: group keys are pairwise distinct, and a (key, aggregates) pair is
emitted exactly when the key is the value tuple of some row and the
aggregates are the reference aggregates of the key's rows. -/
theorem hashKernel_char (rg : RowGroup) (G : List String)
    (A : List (String × AggregateType)) (R : Nat)
    (hne : G ≠ []) (h4 : G.length ≤ 4)
    (hR : ∀ n ∈ G, (rg.columnByName n).numRows = R) (hR32 : R ≤ 2 ^ 32) :
    (((readGroupHashWithU128Key rg G A
        (G.map (fun n => (rg.columnByName n).allEncodedValues))
        (A.map (fun p => (rg.columnByName p.1).allValues))).map Prod.fst).Nodup) ∧
    (∀ (key : List (Option LValue)) (aggs : List AggregateResult),
      ((key, aggs) ∈ readGroupHashWithU128Key rg G A
          (G.map (fun n => (rg.columnByName n).allEncodedValues))
          (A.map (fun p => (rg.columnByName p.1).allValues)) ↔
        (∃ r, r < R ∧ (G.map rg.columnByName).map (fun c => c.valueAt r) = key) ∧
          aggs = refAggList (A.map (fun p => (rg.columnByName p.1, p.2)))
            (tupleRows (G.map rg.columnByName) R key))) := by
  have hgR : ∀ c ∈ G.map rg.columnByName, c.numRows = R := by
    intro c hc
    obtain ⟨n, hn, rfl⟩ := List.mem_map.mp hc
    exact hR n hn
  have hgne : G.map rg.columnByName ≠ [] :=
    fun h => hne (List.map_eq_nil_iff.mp h)
  have hg4 : (G.map rg.columnByName).length ≤ 4 := by simpa using h4
  have hgids : G.map (fun n => (rg.columnByName n).allEncodedValues) =
      (G.map rg.columnByName).map Column.allEncodedValues := by
    rw [List.map_map]
    rfl
  have htot : ((G.map (fun n =>
      (rg.columnByName n).allEncodedValues)).getD 0 []).length = R := by
    cases G with
    | nil => exact absurd rfl hne
    | cons n0 G' =>
      simp only [List.map_cons, List.getD_cons_zero, allEncodedValues_length]
      exact hR n0 (List.mem_cons_self n0 G')
  have hker : readGroupHashWithU128Key rg G A
      (G.map (fun n => (rg.columnByName n).allEncodedValues))
      (A.map (fun p => (rg.columnByName p.1).allValues)) =
      ((List.range R).foldl (fun m row =>
          assocUpdate m (packRowKey ((G.map rg.columnByName).map
              Column.allEncodedValues) row)
            (A.map (fun p => AggregateResult.fromType p.2))
            (aggRowValues (A.map (fun p => (rg.columnByName p.1).allValues)) row)) []).map
        (fun p => ((G.map rg.columnByName).enum.map
            (fun ci => ci.2.decodeId ((p.1 >>> (ci.1 * 32)) % 2 ^ 32)), p.2)) := by
    simp only [readGroupHashWithU128Key]
    rw [htot, hgids]
  rw [hker]
  have hnodupKeys := upsertFold_keys_nodup
    (fun row => packRowKey ((G.map rg.columnByName).map Column.allEncodedValues) row)
    (fun row => aggRowValues (A.map (fun p => (rg.columnByName p.1).allValues)) row)
    (A.map (fun p => AggregateResult.fromType p.2)) (List.range R) [] (by simp)
  have hlookup := upsertFold_lookup_none
    (fun row => packRowKey ((G.map rg.columnByName).map Column.allEncodedValues) row)
    (fun row => aggRowValues (A.map (fun p => (rg.columnByName p.1).allValues)) row)
    (A.map (fun p => AggregateResult.fromType p.2)) (List.range R) []
  have hkeysmem := upsertFold_keys_mem
    (fun row => packRowKey ((G.map rg.columnByName).map Column.allEncodedValues) row)
    (fun row => aggRowValues (A.map (fun p => (rg.columnByName p.1).allValues)) row)
    (A.map (fun p => AggregateResult.fromType p.2)) (List.range R) []
  have hrows : ∀ r0, r0 < R →
      (List.range R).filter (fun r => decide
          (packRowKey ((G.map rg.columnByName).map Column.allEncodedValues) r =
           packRowKey ((G.map rg.columnByName).map Column.allEncodedValues) r0)) =
        tupleRows (G.map rg.columnByName) R
          ((G.map rg.columnByName).map (fun c => c.valueAt r0)) := by
    intro r0 hr0
    unfold tupleRows
    apply List.filter_congr
    intro r hrm
    exact decide_eq_decide.mpr
      (packRowKey_eq_iff (G.map rg.columnByName) hgne hg4 hgR hR32
        (List.mem_range.mp hrm) hr0)
  have hdec : ∀ r, r < R →
      (G.map rg.columnByName).enum.map (fun ci => ci.2.decodeId
          ((packRowKey ((G.map rg.columnByName).map Column.allEncodedValues) r >>>
            (ci.1 * 32)) % 2 ^ 32)) =
        (G.map rg.columnByName).map (fun c => c.valueAt r) :=
    fun r hr => decode_packRowKey (G.map rg.columnByName) hgne hg4 hgR hR32 hr
  have hfold_aggs : ∀ rows : List Nat,
      rows.foldl (fun aggs r => updateAggs aggs
          (aggRowValues (A.map (fun p => (rg.columnByName p.1).allValues)) r))
        (A.map (fun p => AggregateResult.fromType p.2)) =
      refAggList (A.map (fun p => (rg.columnByName p.1, p.2))) rows := by
    intro rows
    have hf : (fun (aggs : List AggregateResult) (r : Nat) => updateAggs aggs
        (aggRowValues (A.map (fun p => (rg.columnByName p.1).allValues)) r)) =
        (fun aggs r => updateAggs aggs ((A.map (fun p =>
          (rg.columnByName p.1, p.2))).map (fun ct => ct.1.valueAt r))) := by
      funext aggs r
      rw [aggRowValues_allValues]
    rw [hf, inits_map_eq rg A]
    exact aggFold_eq_refAggList (A.map (fun p => (rg.columnByName p.1, p.2))) rows
  constructor
  · rw [List.map_map]
    have hmm : (Prod.fst ∘ fun p : Nat × List AggregateResult =>
        ((G.map rg.columnByName).enum.map
          (fun ci => ci.2.decodeId ((p.1 >>> (ci.1 * 32)) % 2 ^ 32)), p.2)) =
        ((fun k : Nat => (G.map rg.columnByName).enum.map
          (fun ci => ci.2.decodeId ((k >>> (ci.1 * 32)) % 2 ^ 32))) ∘ Prod.fst) := rfl
    rw [hmm, ← List.map_map]
    apply List.Nodup.map_on ?_ hnodupKeys
    intro x hx y hy hxy
    have hx' := (hkeysmem x).mp hx
    have hy' := (hkeysmem y).mp hy
    rw [List.map_nil] at hx' hy'
    rcases hx' with h0 | ⟨rx, hrxm, hkx⟩
    · exact absurd h0 (List.not_mem_nil x)
    rcases hy' with h0 | ⟨ry, hrym, hky⟩
    · exact absurd h0 (List.not_mem_nil y)
    have hrx := List.mem_range.mp hrxm
    have hry := List.mem_range.mp hrym
    rw [← hkx, ← hky] at hxy ⊢
    rw [hdec rx hrx, hdec ry hry] at hxy
    exact (packRowKey_eq_iff (G.map rg.columnByName) hgne hg4 hgR hR32
      hrx hry).mpr hxy
  · intro key aggs
    constructor
    · intro hmem
      obtain ⟨⟨k, a⟩, hpg, hpe⟩ := List.mem_map.mp hmem
      simp only [Prod.mk.injEq] at hpe
      obtain ⟨hkey, haggs⟩ := hpe
      have hla := (mem_iff_lookup hnodupKeys k a).mp hpg
      have hl := hlookup k (by simp [List.lookup])
      rw [hla] at hl
      cases hfs : (List.range R).filter (fun r => decide
          (packRowKey ((G.map rg.columnByName).map Column.allEncodedValues) r = k)) with
      | nil => rw [hfs] at hl; exact absurd hl (by simp)
      | cons r0 rs =>
        rw [hfs] at hl
        have ha : a = (r0 :: rs).foldl (fun aggs r => updateAggs aggs
            (aggRowValues (A.map (fun p => (rg.columnByName p.1).allValues)) r))
            (A.map (fun p => AggregateResult.fromType p.2)) := by
          have := Option.some.inj hl
          exact this
        have hr0 : r0 ∈ (List.range R).filter (fun r => decide
            (packRowKey ((G.map rg.columnByName).map Column.allEncodedValues) r = k)) := by
          rw [hfs]; exact List.mem_cons_self _ _
        rw [List.mem_filter] at hr0
        have hr0R : r0 < R := List.mem_range.mp hr0.1
        have hk0 : packRowKey ((G.map rg.columnByName).map Column.allEncodedValues) r0
            = k := of_decide_eq_true hr0.2
        have hkeyval : (G.map rg.columnByName).map (fun c => c.valueAt r0) = key := by
          rw [← hkey, ← hk0]
          exact (hdec r0 hr0R).symm
        refine ⟨⟨r0, hr0R, hkeyval⟩, ?_⟩
        rw [← haggs, ha, ← hfs]
        have hfseq := hrows r0 hr0R
        rw [hk0] at hfseq
        rw [hfseq, hkeyval, hfold_aggs]
    · rintro ⟨⟨r0, hr0R, hkeyval⟩, haggs⟩
      have hfseq := hrows r0 hr0R
      rw [hkeyval] at hfseq
      have hr0mem : r0 ∈ (List.range R).filter (fun r => decide
          (packRowKey ((G.map rg.columnByName).map Column.allEncodedValues) r =
           packRowKey ((G.map rg.columnByName).map Column.allEncodedValues) r0)) :=
        List.mem_filter.mpr ⟨List.mem_range.mpr hr0R, by simp⟩
      have hl := hlookup
        (packRowKey ((G.map rg.columnByName).map Column.allEncodedValues) r0)
        (by simp [List.lookup])
      cases hfs : (List.range R).filter (fun r => decide
          (packRowKey ((G.map rg.columnByName).map Column.allEncodedValues) r =
           packRowKey ((G.map rg.columnByName).map Column.allEncodedValues) r0)) with
      | nil => rw [hfs] at hr0mem; exact absurd hr0mem (by simp)
      | cons q qs =>
        rw [hfs] at hl
        have hmemg := (mem_iff_lookup hnodupKeys
          (packRowKey ((G.map rg.columnByName).map Column.allEncodedValues) r0)
          ((q :: qs).foldl (fun aggs r => updateAggs aggs
            (aggRowValues (A.map (fun p => (rg.columnByName p.1).allValues)) r))
            (A.map (fun p => AggregateResult.fromType p.2)))).mpr hl
        apply List.mem_map.mpr
        refine ⟨_, hmemg, ?_⟩
        simp only [Prod.mk.injEq]
        constructor
        · rw [hdec r0 hr0R, hkeyval]
        · rw [← hfs] at *
          rw [hfseq] at *
          rw [haggs, hfold_aggs]

theorem groupedRowIds_length (c : Column) :
    c.groupedRowIds.length = c.dict.length := by
  simp [Column.groupedRowIds]

theorem decodeId_inj (c : Column) {i j : Nat} (hi : i < c.dict.length)
    (hj : j < c.dict.length) (h : c.decodeId i = c.decodeId j) : i = j := by
  unfold Column.decodeId at h
  rw [List.getD_eq_getElem?_getD, List.getElem?_eq_getElem hi,
    List.getD_eq_getElem?_getD, List.getElem?_eq_getElem hj] at h
  exact (List.Nodup.getElem_inj_iff (List.nodup_dedup c.data)).mp (by simpa using h)

theorem keyOf_inj (gcols : List Column) : ∀ (t u : List Nat),
    List.Forall₂ (fun i c => i < c.dict.length) t gcols →
    List.Forall₂ (fun i c => i < c.dict.length) u gcols →
    (gcols.zip t).map (fun ci => ci.1.decodeId ci.2) =
      (gcols.zip u).map (fun ci => ci.1.decodeId ci.2) → t = u := by
  induction gcols with
  | nil =>
    intro t u ht hu _
    cases ht; cases hu; rfl
  | cons c cs ih =>
    intro t u ht hu h
    cases ht with
    | cons hti httail =>
      cases hu with
      | cons hui hutail =>
        simp only [List.zip_cons_cons, List.map_cons, List.cons_eq_cons] at h
        rw [decodeId_inj c hti hui h.1, ih _ _ httail hutail h.2]

theorem zip_map_self {α β γ : Type} (l : List α) (f : α → β) (g : α → β → γ) :
    (l.zip (l.map f)).map (fun p => g p.1 p.2) = l.map (fun a => g a (f a)) := by
  induction l with
  | nil => rfl
  | cons a l ih => simp only [List.map_cons, List.zip_cons_cons, ih]

theorem filterMap_eq_filter_map {α β : Type} (l : List α) (f : α → Option β)
    (p : α → Bool) (g : α → β)
    (h : ∀ a ∈ l, f a = if p a then some (g a) else none) :
    l.filterMap f = (l.filter p).map g := by
  induction l with
  | nil => rfl
  | cons a l ih =>
    have ht := ih (fun x hx => h x (List.mem_cons_of_mem a hx))
    by_cases hp : p a
    · simp [List.filterMap_cons, List.filter_cons, h a (List.mem_cons_self a l), hp, ht]
    · simp [List.filterMap_cons, List.filter_cons, h a (List.mem_cons_self a l), hp, ht]

theorem tupleKey_iff (gcols : List Column) : ∀ (t : List Nat),
    gcols.length = t.length → ∀ r : Nat,
    (gcols.map (fun c => c.valueAt r) =
        (gcols.zip t).map (fun ci => ci.1.decodeId ci.2) ↔
      ∀ ci ∈ gcols.zip t, ci.1.valueAt r = ci.1.decodeId ci.2) := by
  induction gcols with
  | nil =>
    intro t _ r
    simp
  | cons c cs ih =>
    intro t hlen r
    cases t with
    | nil => simp at hlen
    | cons i is =>
      simp only [List.map_cons, List.zip_cons_cons, List.cons_eq_cons,
        List.forall_mem_cons]
      rw [ih is (by simpa using hlen) r]

theorem tupleRows_filter_all (gcols : List Column) (t : List Nat)
    (hlen : gcols.length = t.length) (R : Nat) :
    tupleRows gcols R ((gcols.zip t).map (fun ci => ci.1.decodeId ci.2)) =
      (List.range R).filter (fun r =>
        (gcols.zip t).all (fun ci => ci.1.valueAt r == ci.1.decodeId ci.2)) := by
  unfold tupleRows
  apply List.filter_congr
  intro r _
  apply Bool.eq_iff_iff.mpr
  rw [decide_eq_true_eq, List.all_eq_true]
  simp only [beq_iff_eq]
  exact tupleKey_iff gcols t hlen r

theorem foldl_interStep_none (bs : List (List (List Nat) × Nat)) :
    bs.foldl interStep none = none := by
  induction bs with
  | nil => rfl
  | cons b bs ih => simpa [interStep] using ih

theorem foldl_interStep_cols (R : Nat) (cs : List Column) :
    ∀ (il : List Nat) (p : Nat → Bool),
      (∀ c ∈ cs, c.numRows = R) →
      List.Forall₂ (fun i c => i < c.dict.length) il cs →
      (List.range R).filter p ≠ [] →
      ((cs.map Column.groupedRowIds).zip il).foldl interStep
          (some ((List.range R).filter p)) =
        (if (List.range R).filter (fun r => p r &&
              (cs.zip il).all (fun ci => ci.1.valueAt r == ci.1.decodeId ci.2)) = []
         then none
         else some ((List.range R).filter (fun r => p r &&
              (cs.zip il).all (fun ci => ci.1.valueAt r == ci.1.decodeId ci.2)))) := by
  induction cs with
  | nil =>
    intro il p hR his hp
    cases his
    simp only [List.map_nil, List.zip_nil_left, List.zip_nil_right, List.foldl_nil,
      List.all_nil, Bool.and_true]
    rw [if_neg hp]
  | cons c cs ih =>
    intro il p hR his hp
    cases il with
    | nil => exact absurd his (by intro h; cases h)
    | cons i is_ =>
      cases his with
      | cons hi htail =>
      simp only [List.map_cons, List.zip_cons_cons, List.foldl_cons]
      have hbit : c.groupedRowIds.getD i [] =
          (List.range R).filter (fun r => c.valueAt r == c.decodeId i) := by
        rw [groupedRowIds_getD hi]
        unfold Column.rowsWithValue
        rw [hR c (List.mem_cons_self _ _)]
      have hstep : interStep (some ((List.range R).filter p)) (c.groupedRowIds, i) =
          (if ((List.range R).filter
                (fun r => p r && (c.valueAt r == c.decodeId i))).isEmpty
           then none
           else some ((List.range R).filter
                (fun r => p r && (c.valueAt r == c.decodeId i)))) := by
        simp only [interStep, hbit, rowIdsIntersect_filter]
      rw [hstep]
      by_cases hemp : ((List.range R).filter
          (fun r => p r && (c.valueAt r == c.decodeId i))).isEmpty
      · rw [if_pos hemp, foldl_interStep_none]
        have hnil : (List.range R).filter
            (fun r => p r && (c.valueAt r == c.decodeId i)) = [] :=
          List.isEmpty_iff.mp hemp
        have hfull : (List.range R).filter (fun r => p r &&
            ((c, i) :: cs.zip is_).all
              (fun ci => ci.1.valueAt r == ci.1.decodeId ci.2)) = [] := by
          apply filter_eq_nil_mono ?_ hnil
          intro r hq
          simp only [List.all_cons, Bool.and_eq_true] at hq ⊢
          exact ⟨hq.1, hq.2.1⟩
        rw [if_pos hfull]
      · rw [if_neg hemp]
        have hne' : (List.range R).filter
            (fun r => p r && (c.valueAt r == c.decodeId i)) ≠ [] := by
          intro h0
          exact hemp (by rw [h0]; rfl)
        rw [ih is_ (fun r => p r && (c.valueAt r == c.decodeId i))
          (fun c' hc' => hR c' (List.mem_cons_of_mem _ hc')) htail hne']
        have hfn : (fun r => (p r && (c.valueAt r == c.decodeId i)) &&
            (cs.zip is_).all (fun ci => ci.1.valueAt r == ci.1.decodeId ci.2)) =
            (fun r => p r && ((c, i) :: cs.zip is_).all
              (fun ci => ci.1.valueAt r == ci.1.decodeId ci.2)) := by
          funext r
          simp only [List.all_cons]
          rw [Bool.and_assoc]
        rw [hfn]

theorem intersectTuple_char (gcols : List Column) (R : Nat)
    (hne : gcols ≠ []) (hR : ∀ c ∈ gcols, c.numRows = R)
    (t : List Nat) (ht : List.Forall₂ (fun i c => i < c.dict.length) t gcols) :
    intersectTuple (gcols.map Column.groupedRowIds) t =
      (if tupleRows gcols R ((gcols.zip t).map (fun ci => ci.1.decodeId ci.2)) = []
       then none
       else some (tupleRows gcols R
         ((gcols.zip t).map (fun ci => ci.1.decodeId ci.2)))) := by
  have hlen : gcols.length = t.length := (List.Forall₂.length_eq ht).symm
  rw [tupleRows_filter_all gcols t hlen R]
  cases gcols with
  | nil => exact absurd rfl hne
  | cons c cs =>
    cases t with
    | nil => exact absurd ht (by intro h; cases h)
    | cons i is_ =>
      cases ht with
      | cons hi htail =>
      simp only [List.map_cons, List.zip_cons_cons, intersectTuple]
      have hbit : c.groupedRowIds.getD i [] =
          (List.range R).filter (fun r => c.valueAt r == c.decodeId i) := by
        rw [groupedRowIds_getD hi]
        unfold Column.rowsWithValue
        rw [hR c (List.mem_cons_self _ _)]
      rw [hbit]
      by_cases hemp : ((List.range R).filter
          (fun r => c.valueAt r == c.decodeId i)).isEmpty
      · rw [if_pos hemp]
        have hnil : (List.range R).filter
            (fun r => c.valueAt r == c.decodeId i) = [] :=
          List.isEmpty_iff.mp hemp
        have hfull : (List.range R).filter (fun r =>
            ((c, i) :: cs.zip is_).all
              (fun ci => ci.1.valueAt r == ci.1.decodeId ci.2)) = [] := by
          apply filter_eq_nil_mono ?_ hnil
          intro r hq
          simp only [List.all_cons, Bool.and_eq_true] at hq
          exact hq.1
        rw [if_pos hfull]
      · rw [if_neg hemp]
        have hne' : (List.range R).filter
            (fun r => c.valueAt r == c.decodeId i) ≠ [] := by
          intro h0
          exact hemp (by rw [h0]; rfl)
        rw [foldl_interStep_cols R cs is_ (fun r => c.valueAt r == c.decodeId i)
          (fun c' hc' => hR c' (List.mem_cons_of_mem _ hc')) htail hne']
        have hfn : (fun r => (c.valueAt r == c.decodeId i) &&
            (cs.zip is_).all (fun ci => ci.1.valueAt r == ci.1.decodeId ci.2)) =
            (fun r => ((c, i) :: cs.zip is_).all
              (fun ci => ci.1.valueAt r == ci.1.decodeId ci.2)) := by
          funext r
          simp only [List.all_cons]
        rw [hfn]

/-- Characterization of the all-RLE bitmap-intersection kernel: it
succeeds whenever all aggregates are Count/Sum/Min/Max, its group keys are
pairwise distinct, and it emits exactly the realized value tuples with the
reference aggregates of each tuple's rows. -/
theorem rleKernel_char (rg : RowGroup) (G : List String)
    (A : List (String × AggregateType)) (R : Nat)
    (hne : G ≠ []) (hR : ∀ n ∈ G, (rg.columnByName n).numRows = R)
    (hA : ∀ p ∈ A, p.2 = AggregateType.count ∨ p.2 = AggregateType.sum ∨
      p.2 = AggregateType.min ∨ p.2 = AggregateType.max) :
    ∃ pairs, readGroupAllRowsAllRLE rg G A = some pairs ∧
      ((pairs.map Prod.fst).Nodup) ∧
      (∀ (key : List (Option LValue)) (aggs : List AggregateResult),
        ((key, aggs) ∈ pairs ↔
          (∃ r, r < R ∧ (G.map rg.columnByName).map (fun c => c.valueAt r) = key) ∧
            aggs = refAggList (A.map (fun p => (rg.columnByName p.1, p.2)))
              (tupleRows (G.map rg.columnByName) R key))) := by
  have hgR : ∀ c ∈ G.map rg.columnByName, c.numRows = R := by
    intro c hc
    obtain ⟨n, hn, rfl⟩ := List.mem_map.mp hc
    exact hR n hn
  have hgne : G.map rg.columnByName ≠ [] :=
    fun h => hne (List.map_eq_nil_iff.mp h)
  have hAc : ∀ ct ∈ A.map (fun p => (rg.columnByName p.1, p.2)),
      ct.2 = AggregateType.count ∨ ct.2 = AggregateType.sum ∨
      ct.2 = AggregateType.min ∨ ct.2 = AggregateType.max := by
    intro ct hct
    obtain ⟨p, hp, rfl⟩ := List.mem_map.mp hct
    exact hA p hp
  have hGK : ∀ t : List Nat,
      t ∈ prodLists (((G.map rg.columnByName).map Column.groupedRowIds).map
          (fun ids => List.range ids.length)) ↔
        List.Forall₂ (fun i c => i < c.dict.length) t (G.map rg.columnByName) := by
    intro t
    rw [mem_prodLists, List.map_map, List.forall₂_map_right_iff]
    constructor
    · intro h
      apply h.imp
      intro a b hab
      have := List.mem_range.mp (by simpa using hab)
      rw [groupedRowIds_length] at this
      exact this
    · intro h
      apply h.imp
      intro a b hab
      simp only [Function.comp]
      rw [List.mem_range, groupedRowIds_length]
      exact hab
  have hker : readGroupAllRowsAllRLE rg G A =
      ((prodLists (((G.map rg.columnByName).map Column.groupedRowIds).map
          (fun ids => List.range ids.length))).filterMap (fun t =>
        (intersectTuple ((G.map rg.columnByName).map Column.groupedRowIds) t).map
          (fun rows => (t, rows)))).mapM (fun tr =>
        ((A.map (fun p => (rg.columnByName p.1, p.2))).mapM
            (fun ct => rleAggregate ct.1 ct.2 tr.2)).map (fun aggs =>
          (((G.map rg.columnByName).zip tr.1).map
            (fun ci => ci.1.decodeId ci.2), aggs))) := rfl
  have hreal : (prodLists (((G.map rg.columnByName).map Column.groupedRowIds).map
        (fun ids => List.range ids.length))).filterMap (fun t =>
      (intersectTuple ((G.map rg.columnByName).map Column.groupedRowIds) t).map
        (fun rows => (t, rows))) =
      ((prodLists (((G.map rg.columnByName).map Column.groupedRowIds).map
          (fun ids => List.range ids.length))).filter (fun t =>
        decide (tupleRows (G.map rg.columnByName) R
          (((G.map rg.columnByName).zip t).map
            (fun ci => ci.1.decodeId ci.2)) ≠ []))).map (fun t =>
        (t, tupleRows (G.map rg.columnByName) R
          (((G.map rg.columnByName).zip t).map (fun ci => ci.1.decodeId ci.2)))) := by
    apply filterMap_eq_filter_map
    intro t htm
    rw [intersectTuple_char (G.map rg.columnByName) R hgne hgR t ((hGK t).mp htm)]
    by_cases h0 : tupleRows (G.map rg.columnByName) R
        (((G.map rg.columnByName).zip t).map (fun ci => ci.1.decodeId ci.2)) = []
    · rw [if_pos h0]
      simp [h0]
    · rw [if_neg h0]
      simp [h0]
  have hmapm : readGroupAllRowsAllRLE rg G A =
      some (((prodLists (((G.map rg.columnByName).map Column.groupedRowIds).map
          (fun ids => List.range ids.length))).filter (fun t =>
        decide (tupleRows (G.map rg.columnByName) R
          (((G.map rg.columnByName).zip t).map
            (fun ci => ci.1.decodeId ci.2)) ≠ []))).map (fun t =>
        (((G.map rg.columnByName).zip t).map (fun ci => ci.1.decodeId ci.2),
         refAggList (A.map (fun p => (rg.columnByName p.1, p.2)))
           (tupleRows (G.map rg.columnByName) R
             (((G.map rg.columnByName).zip t).map
               (fun ci => ci.1.decodeId ci.2)))))) := by
    rw [hker, hreal]
    rw [mapM_eq_some_map _ (fun tr =>
      (((G.map rg.columnByName).zip tr.1).map (fun ci => ci.1.decodeId ci.2),
       refAggList (A.map (fun p => (rg.columnByName p.1, p.2))) tr.2)) _ ?_]
    · rw [List.map_map]
      rfl
    · intro tr _
      rw [rleAgg_mapM (A.map (fun p => (rg.columnByName p.1, p.2))) tr.2 hAc]
      rfl
  refine ⟨_, hmapm, ?_, ?_⟩
  · rw [List.map_map]
    have hGKnodup : (prodLists (((G.map rg.columnByName).map
        Column.groupedRowIds).map (fun ids => List.range ids.length))).Nodup := by
      apply nodup_prodLists
      intro l hl
      obtain ⟨ids, _, rfl⟩ := List.mem_map.mp hl
      exact List.nodup_range _
    apply List.Nodup.map_on ?_ (hGKnodup.filter _)
    intro t htf u huf he
    have htb := (hGK t).mp (List.mem_of_mem_filter htf)
    have hub := (hGK u).mp (List.mem_of_mem_filter huf)
    exact keyOf_inj (G.map rg.columnByName) t u htb hub (by simpa using he)
  · intro key aggs
    constructor
    · intro hmem
      obtain ⟨t, htf, hgk⟩ := List.mem_map.mp hmem
      rw [List.mem_filter] at htf
      have htrne := of_decide_eq_true htf.2
      simp only [Prod.mk.injEq] at hgk
      obtain ⟨hkeyOf, haggs⟩ := hgk
      rw [hkeyOf] at htrne haggs
      obtain ⟨r, hrmem⟩ := List.exists_mem_of_ne_nil _ htrne
      rw [tupleRows, List.mem_filter] at hrmem
      exact ⟨⟨r, List.mem_range.mp hrmem.1, of_decide_eq_true hrmem.2⟩, haggs.symm⟩
    · rintro ⟨⟨r, hrR, hkey⟩, haggs⟩
      have htF2 : List.Forall₂ (fun i c => i < c.dict.length)
          ((G.map rg.columnByName).map (fun c => c.encodedAt r))
          (G.map rg.columnByName) := by
        rw [List.forall₂_map_left_iff]
        apply List.forall₂_same.mpr
        intro c hc
        exact encodedAt_lt_dict (by rw [hgR c hc]; exact hrR)
      have hkeyOf : ((G.map rg.columnByName).zip ((G.map rg.columnByName).map
          (fun c => c.encodedAt r))).map (fun ci => ci.1.decodeId ci.2) = key := by
        rw [zip_map_self (G.map rg.columnByName) (fun c => c.encodedAt r)
          (fun c i => c.decodeId i)]
        rw [← hkey]
        apply List.map_congr_left
        intro c hc
        exact decodeId_encodedAt c (hgR c hc) hrR
      have hrmem : r ∈ tupleRows (G.map rg.columnByName) R key := by
        rw [tupleRows, List.mem_filter]
        exact ⟨List.mem_range.mpr hrR, decide_eq_true hkey⟩
      have htrne : tupleRows (G.map rg.columnByName) R key ≠ [] :=
        List.ne_nil_of_mem hrmem
      apply List.mem_map.mpr
      refine ⟨(G.map rg.columnByName).map (fun c => c.encodedAt r), ?_, ?_⟩
      · rw [List.mem_filter]
        refine ⟨(hGK _).mpr htF2, ?_⟩
        rw [hkeyOf]
        exact decide_eq_true htrne
      · rw [hkeyOf]
        simp only [Prod.mk.injEq]
        exact ⟨trivial, haggs.symm⟩

/-- Claim C5: kernel equivalence for query shapes reachable by both the
all-RLE bitmap-intersection kernel and the packed-u128 hash kernel (1–4
grouping columns, no predicates, Count/Sum/Min/Max aggregates): on the same
unfiltered inputs the two kernels emit the same set of (group key,
aggregates) pairs — the all-RLE result is a permutation of the hash-kernel
result. -/
theorem C5_all_rle_and_u128_hash_kernels_agree (rg : RowGroup) (G : List String)
    (A : List (String × AggregateType)) (R : Nat)
    (hne : G ≠ []) (h4 : G.length ≤ 4)
    (hR : ∀ n ∈ G, (rg.columnByName n).numRows = R) (hR32 : R ≤ 2 ^ 32)
    (hA : ∀ p ∈ A, p.2 = AggregateType.count ∨ p.2 = AggregateType.sum ∨
      p.2 = AggregateType.min ∨ p.2 = AggregateType.max) :
    ∃ pairs, readGroupAllRowsAllRLE rg G A = some pairs ∧
      pairs.Perm (readGroupHashWithU128Key rg G A
        (G.map (fun n => (rg.columnByName n).allEncodedValues))
        (A.map (fun p => (rg.columnByName p.1).allValues))) := by
  obtain ⟨pairs, hsome, hnodupR, hmemR⟩ := rleKernel_char rg G A R hne hR hA
  obtain ⟨hnodupH, hmemH⟩ := hashKernel_char rg G A R hne h4 hR hR32
  refine ⟨pairs, hsome, ?_⟩
  rw [List.perm_ext_iff_of_nodup (List.Nodup.of_map _ hnodupR)
    (List.Nodup.of_map _ hnodupH)]
  rintro ⟨key, aggs⟩
  rw [hmemR key aggs, hmemH key aggs]

/-- Witness for C5: the spec §8 fixture grouped by (region, method) with a
Sum aggregate on counter, a shape read_group can reach through either
kernel. -/
theorem C5_all_rle_and_u128_hash_kernels_agree_witness :
    ((["region", "method"] : List String) ≠ []) ∧
    ((["region", "method"] : List String).length ≤ 4) ∧
    (∀ n ∈ (["region", "method"] : List String),
      (fixture.columnByName n).numRows = 6) ∧
    ((6 : Nat) ≤ 2 ^ 32) ∧
    (∀ p ∈ ([("counter", AggregateType.sum)] : List (String × AggregateType)),
      p.2 = AggregateType.count ∨ p.2 = AggregateType.sum ∨
      p.2 = AggregateType.min ∨ p.2 = AggregateType.max) ∧
    (∃ pairs, readGroupAllRowsAllRLE fixture ["region", "method"]
        [("counter", AggregateType.sum)] = some pairs ∧
      pairs.Perm (readGroupHashWithU128Key fixture ["region", "method"]
        [("counter", AggregateType.sum)]
        ((["region", "method"] : List String).map
          (fun n => (fixture.columnByName n).allEncodedValues))
        (([("counter", AggregateType.sum)] :
            List (String × AggregateType)).map
          (fun p => (fixture.columnByName p.1).allValues)))) :=
  ⟨by decide, by decide, by decide, by decide, by decide,
   C5_all_rle_and_u128_hash_kernels_agree fixture ["region", "method"]
     [("counter", AggregateType.sum)] 6
     (by decide) (by decide) (by decide) (by decide) (by decide)⟩
